import Mathlib

/-!
Verification of the EM coin-toss notebook (NB16_CXIII-EM_coin_toss).

The source is a Python/numpy program.  We embed it shallowly:

* Floating-point scalars are idealized as exact rationals.  The one
  float phenomenon the E-M loop actually exercises is the IEEE `nan`
  produced by its `0/0` divisions (degenerate E-steps, where every
  operand is a numpy float64), so scalars are modelled by
  `Val := Option ℚ` with `Option.none` playing the role of `nan`:
  arithmetic propagates `none`, and every ordered comparison involving
  `none` is false, exactly as for IEEE `nan`.  In the loop a zero
  divisor only ever occurs together with a zero dividend (all dividends
  are sums of nonnegative terms bounded by the divisor), so `0/0 = nan`
  is the only division-by-zero that arises there and
  `vDiv _ (some 0) = none` is faithful.  The MLE normalization is
  different: a never-selected coin divides the builtin float `0.0` by
  the builtin int `0`, which raises `ZeroDivisionError` (see
  `computeMLE`).
* The iteration arrays `pA_heads = np.zeros(100)`, `pB_heads =
  np.zeros(100)` are modelled by the prefix of entries written so far
  (the trace) plus a fuel counter for the remaining free slots;
  writing `pA_heads[j+1]` with `j + 1 > 99` raises an IndexError,
  modelled by `EMErr.indexError`.
* The dataset is the pair of parallel sequences `head_counts`,
  `tail_counts` (integer counts stored as floats in the source); the
  loop ranges over `min(len(head_counts), len(tail_counts))`, i.e. over
  `head_counts.zip tail_counts`.
-/

/-- Scalar values of the source's float computation, idealized as exact
rationals; `Option.none` models the IEEE `nan` arising from `0/0`. -/
abbrev Val : Type := Option ℚ

/-- Float addition: `nan` propagates. -/
def vAdd : Val → Val → Val
  | Option.some a, Option.some b => Option.some (a + b)
  | _, _ => Option.none

/-- Float subtraction: `nan` propagates. -/
def vSub : Val → Val → Val
  | Option.some a, Option.some b => Option.some (a - b)
  | _, _ => Option.none

/-- Float multiplication: `nan` propagates (also `nan * 0 = nan`). -/
def vMul : Val → Val → Val
  | Option.some a, Option.some b => Option.some (a * b)
  | _, _ => Option.none

/-- Float division.  A zero divisor gives `nan`: in this program a zero
divisor only occurs with a zero dividend, i.e. as IEEE `0/0 = nan`. -/
def vDiv : Val → Val → Val
  | Option.some a, Option.some b => if b = 0 then Option.none else Option.some (a / b)
  | _, _ => Option.none

/-- Float power with a natural exponent; `x ** 0 = 1` for every float
`x` including `nan`, as in IEEE/Python. -/
def vPow : Val → ℕ → Val
  | _, 0 => Option.some 1
  | Option.some a, k => Option.some (a ^ k)
  | Option.none, _ => Option.none

/-- Float absolute value: `nan` propagates. -/
def vAbs (x : Val) : Val := x.map (fun a => |a|)

/-- The float comparison `x > y`: any comparison with `nan` is false (IEEE). -/
def vGt : Val → Val → Bool
  | Option.some a, Option.some b => decide (b < a)
  | _, _ => false

/-- Python's `max` over the two-element array `[x, y]`: it returns `y`
only when the comparison `y > x` holds, hence `max(nan, y) = nan`. -/
def vMax (x y : Val) : Val := if vGt y x then y else x

/-- Python's `sum` over a sequence of floats (left fold from `0`). -/
def vSum (l : List Val) : Val := l.foldl vAdd (Option.some 0)

/-- Source: `likelihood = comb(n, obs, exact=True)*(pheads**obs)*(1.0-pheads)**(n-obs)`.
The binomial coefficient is exact (`comb(n, obs, exact=True)`, equal to 0
for `obs > n`), and the subtraction `n - obs` of the trial and head
counts is the truncated natural subtraction (the source only calls this
with `obs ≤ n`). -/
def compute_likelihood (obs n : ℕ) (pheads : Val) : Val :=
  vMul (vMul (Option.some ((n.choose obs : ℚ))) (vPow pheads obs))
    (vPow (vSub (Option.some 1) pheads) (n - obs))

/-- E-step: `weightA = lA / (lA + lB)` where `lA`, `lB` are the
likelihoods of the observed head count `eH` under the current biases. -/
def weightA (n : ℕ) (pA pB : Val) (eH : ℕ) : Val :=
  vDiv (compute_likelihood eH n pA)
    (vAdd (compute_likelihood eH n pA) (compute_likelihood eH n pB))

/-- E-step: `weightB = lB / (lA + lB)`. -/
def weightB (n : ℕ) (pA pB : Val) (eH : ℕ) : Val :=
  vDiv (compute_likelihood eH n pB)
    (vAdd (compute_likelihood eH n pA) (compute_likelihood eH n pB))

/-- E-step rows `expectation_A[i] = weightA*np.array([eH, eT])` for each
experiment `i` of the dataset. -/
def expectation_A (n : ℕ) (hc tc : List ℕ) (pA pB : Val) : List (Val × Val) :=
  (hc.zip tc).map fun e =>
    (vMul (weightA n pA pB e.1) (Option.some (e.1 : ℚ)),
     vMul (weightA n pA pB e.1) (Option.some (e.2 : ℚ)))

/-- The rows `expectation_B[i] = weightB*np.array([eH, eT])`. -/
def expectation_B (n : ℕ) (hc tc : List ℕ) (pA pB : Val) : List (Val × Val) :=
  (hc.zip tc).map fun e =>
    (vMul (weightB n pA pB e.1) (Option.some (e.1 : ℚ)),
     vMul (weightB n pA pB e.1) (Option.some (e.2 : ℚ)))

/-- The inner Python `sum` over a list of 2-element rows adds the rows
componentwise (starting from `0`): the column-sum pair `sum(expectation)`. -/
def colSum (rows : List (Val × Val)) : Val × Val :=
  rows.foldl (fun acc r => (vAdd acc.1 r.1, vAdd acc.2 r.2)) (Option.some 0, Option.some 0)

/-- One body of the E-M while loop, computing the pair
`(pA_heads[j+1], pB_heads[j+1])` from `(pA_heads[j], pB_heads[j])`:
the E-step rows followed by the M-step
`pA_heads[j+1] = sum(expectation_A)[0] / sum(sum(expectation_A))`
(the outer `sum` adds the two column sums), and likewise for B.
On an empty dataset the source crashes (it indexes the integer `0`);
claims about whole runs therefore assume a nonempty dataset. -/
def emUpdate (n : ℕ) (hc tc : List ℕ) (pA pB : Val) : Val × Val :=
  (vDiv (colSum (expectation_A n hc tc pA pB)).1
     (vAdd (colSum (expectation_A n hc tc pA pB)).1 (colSum (expectation_A n hc tc pA pB)).2),
   vDiv (colSum (expectation_B n hc tc pA pB)).1
     (vAdd (colSum (expectation_B n hc tc pA pB)).1 (colSum (expectation_B n hc tc pA pB)).2))

/-- The only failure the source loop can actually produce: writing
`pA_heads[j+1]` past the end of the 100-entry iteration arrays. -/
inductive EMErr : Type
  | indexError : EMErr
deriving DecidableEq

/-- Result of a completed E-M run: the (unmodified) dataset arrays, the
final biases, and the per-iteration trace `(pA_heads[k], pB_heads[k])`
for `k = 0, …, j`. -/
structure EMResult : Type where
  head_counts : List ℕ
  tail_counts : List ℕ
  theta_A : Val
  theta_B : Val
  trace : List (Val × Val)
deriving DecidableEq

/-- The E-M while loop `while (improvement > epsilon): …`.  `fuel` is
the number of still-unwritten slots of the 100-entry iteration arrays;
when the guard holds but no slot is left, the write `pA_heads[j+1]`
raises an IndexError.  The dataset lists are threaded through unchanged,
as the source loop body only reads them. -/
def emLoop (n : ℕ) (eps : ℚ) :
    ℕ → List ℕ → List ℕ → Val → Val → List (Val × Val) → Val → Except EMErr EMResult
  | fuel, hc, tc, pA, pB, trace, improvement =>
    if vGt improvement (Option.some eps) then
      match fuel with
      | 0 => Except.error EMErr.indexError
      | Nat.succ fuel' =>
        let p : Val × Val := emUpdate n hc tc pA pB
        emLoop n eps fuel' hc tc p.1 p.2 (trace ++ [p])
          (vMax (vAbs (vSub p.1 pA)) (vAbs (vSub p.2 pB)))
    else Except.ok ⟨hc, tc, pA, pB, trace⟩

/-- A full E-M run: `pA_heads[0], pB_heads[0]` are the initial guesses,
`improvement` starts at `float('inf')`, so the guard of the first
iteration always holds and the body runs at least once (writing slot 1);
the guarded loop then has the 98 slots `2, …, 99` left. -/
def runEM (n : ℕ) (hc tc : List ℕ) (eps : ℚ) (pA0 pB0 : Val) : Except EMErr EMResult :=
  let p : Val × Val := emUpdate n hc tc pA0 pB0
  emLoop n eps 98 hc tc p.1 p.2 [(pA0, pB0), p]
    (vMax (vAbs (vSub p.1 pA0)) (vAbs (vSub p.2 pB0)))

/-- The failure the MLE normalization can produce: a coin that was never
selected leaves its accumulator as the builtin Python float `0.0` (the
numpy-typed accumulation line never runs), and `np.count_nonzero`
returns a builtin `int`, so the division is builtin `0.0 / 0`, which
raises `ZeroDivisionError` — unlike the all-numpy E-step divisions,
which silently produce `nan`. -/
inductive MLEErr : Type
  | zeroDivisionError : MLEErr
deriving DecidableEq

/-- Reference MLE from fully labeled data.  `labeled` pairs each
experiment's coin choice (`false` = A, `true` = B, as in the source's
`coin_choice` 0/1 array) with its head count; `n` is the per-experiment
toss count.  `MLE_A = (sum of A-heads) / ((num_exp - count_nonzero(coin_choice)) * num_coin_toss)`
and symmetrically for B, the A division running first.  A never-selected
coin raises `ZeroDivisionError` (see `MLEErr`).  When a coin was
selected, its accumulator is a numpy float64, so its division by zero —
possible only for `n = 0`, which the source never uses (`num_coin_toss
= 10`) — would be silent and is modelled by the `nan` of `vDiv`. -/
def computeMLE (n : ℕ) (labeled : List (Bool × ℕ)) : Except MLEErr (Val × Val) :=
  if labeled.length - (labeled.filter (fun e => e.1)).length = 0 then
    Except.error MLEErr.zeroDivisionError
  else if (labeled.filter (fun e => e.1)).length = 0 then
    Except.error MLEErr.zeroDivisionError
  else
    Except.ok
      (vDiv (Option.some (labeled.foldl (fun s e => if e.1 then s else s + (e.2 : ℚ)) 0))
         (Option.some (((labeled.length - (labeled.filter (fun e => e.1)).length) * n : ℕ) : ℚ)),
       vDiv (Option.some (labeled.foldl (fun s e => if e.1 then s + (e.2 : ℚ) else s) 0))
         (Option.some (((labeled.filter (fun e => e.1)).length * n : ℕ) : ℚ)))

/-- One row of the restart table: initial guesses and final estimates. -/
structure RestartRow : Type where
  pA_init : ℚ
  pB_init : ℚ
  pA_out : Val
  pB_out : Val
deriving DecidableEq

/-- Accuracy score `df['acc'] = abs(pA_out - theta_A_true) + abs(pB_out - theta_B_true)`. -/
def accScore (tA tB : ℚ) (r : RestartRow) : Val :=
  vAdd (vAbs (vSub r.pA_out (Option.some tA))) (vAbs (vSub r.pB_out (Option.some tB)))

/-- The comparison `sort_values('acc')` sorts by: ascending accuracy,
with `nan` scores placed last (pandas `na_position='last'`). -/
def accLe (tA tB : ℚ) (r s : RestartRow) : Bool :=
  match accScore tA tB r, accScore tA tB s with
  | Option.some a, Option.some b => decide (a ≤ b)
  | Option.some _, Option.none => true
  | Option.none, Option.none => true
  | Option.none, Option.some _ => false

/-- The restart table before sorting: one EM run per initial guess drawn
by the random source.  A failing run (IndexError) aborts the whole
driver, as the source has no error handling around the E-M loop. -/
def restartRows (n : ℕ) (hc tc : List ℕ) (eps : ℚ) :
    List (ℚ × ℚ) → Except EMErr (List RestartRow)
  | [] => Except.ok []
  | p :: rest =>
    match runEM n hc tc eps (Option.some p.1) (Option.some p.2),
        restartRows n hc tc eps rest with
    | Except.ok r, Except.ok rows =>
      Except.ok ({ pA_init := p.1, pB_init := p.2,
                   pA_out := r.theta_A, pB_out := r.theta_B } :: rows)
    | Except.error e, _ => Except.error e
    | Except.ok _, Except.error e => Except.error e

/-- The multi-restart driver: run EM once per drawn initial guess and
return the table sorted by ascending accuracy (`df.sort_values('acc')`). -/
def runMultiRestart (n : ℕ) (hc tc : List ℕ) (eps : ℚ) (inits : List (ℚ × ℚ))
    (tA tB : ℚ) : Except EMErr (List RestartRow) :=
  (restartRows n hc tc eps inits).map fun rows => rows.mergeSort (accLe tA tB)


/-- The float comparison `x <= y`: any comparison with `nan` is false (IEEE). -/
def vLe : Val → Val → Bool
  | Option.some a, Option.some b => decide (a ≤ b)
  | _, _ => false

/-- The ℚ-level value of the likelihood: the Binomial probability mass
`C(n,k)·p^k·(1−p)^(n−k)` (the spec's BinomialLikelihood). -/
def likeQ (obs n : ℕ) (p : ℚ) : ℚ :=
  (n.choose obs : ℚ) * p ^ obs * (1 - p) ^ (n - obs)

/-- ℚ-level E-step responsibility of coin A for an experiment with
head count `h` (defined when the likelihood sum is nonzero). -/
def wQA (n : ℕ) (a b : ℚ) (h : ℕ) : ℚ :=
  likeQ h n a / (likeQ h n a + likeQ h n b)

/-- ℚ-level E-step responsibility of coin B. -/
def wQB (n : ℕ) (a b : ℚ) (h : ℕ) : ℚ :=
  likeQ h n b / (likeQ h n a + likeQ h n b)

/-- ℚ-level expected heads for coin A, `Σ_i wA_i·heads_i`. -/
def expHeadsQ_A (n : ℕ) (hc tc : List ℕ) (a b : ℚ) : ℚ :=
  ((hc.zip tc).map fun e => wQA n a b e.1 * (e.1 : ℚ)).sum

/-- ℚ-level expected tails for coin A, `Σ_i wA_i·tails_i`. -/
def expTailsQ_A (n : ℕ) (hc tc : List ℕ) (a b : ℚ) : ℚ :=
  ((hc.zip tc).map fun e => wQA n a b e.1 * (e.2 : ℚ)).sum

/-- ℚ-level expected heads for coin B. -/
def expHeadsQ_B (n : ℕ) (hc tc : List ℕ) (a b : ℚ) : ℚ :=
  ((hc.zip tc).map fun e => wQB n a b e.1 * (e.1 : ℚ)).sum

/-- ℚ-level expected tails for coin B. -/
def expTailsQ_B (n : ℕ) (hc tc : List ℕ) (a b : ℚ) : ℚ :=
  ((hc.zip tc).map fun e => wQB n a b e.1 * (e.2 : ℚ)).sum

/-- The observed-data log-likelihood of the dataset at biases `(a, b)`,
recomputed at a trace point as the spec directs: each experiment
contributes `log (L_A + L_B)` (the constant mixture factor 1/2 is
irrelevant to monotonicity and omitted, as in the spec's E-step). -/
noncomputable def loglik (n : ℕ) (hc tc : List ℕ) (a b : ℚ) : ℝ :=
  ((hc.zip tc).map fun e =>
    Real.log ((likeQ e.1 n a : ℝ) + (likeQ e.1 n b : ℝ))).sum

/-- The observed-data log-likelihood at a point of the iteration trace
(junk value 0 at a `nan` trace point; the monotonicity claim assumes a
`nan`-free trace). -/
noncomputable def llv (n : ℕ) (hc tc : List ℕ) : Val × Val → ℝ
  | (Option.some a, Option.some b) => loglik n hc tc a b
  | _ => 0

/-- Spec-side: total heads among the experiments labeled with coin
`lab` (`false` = A, `true` = B). -/
def totalHeads (lab : Bool) (labeled : List (Bool × ℕ)) : ℚ :=
  ((labeled.filter fun e => e.1 = lab).map fun e => (e.2 : ℚ)).sum

/-- Spec-side: how many experiments are labeled with coin `lab`. -/
def numSelected (lab : Bool) (labeled : List (Bool × ℕ)) : ℕ :=
  (labeled.filter fun e => e.1 = lab).length

/-! ### Spec-side definitions

These follow the spec's words, for comparison with the source
computation: the responsibility-weighted sufficient statistics
`expHeads_A = Σ_i weightA_i·heads_i`, `expTails_A = Σ_i weightA_i·tails_i`
(symmetrically for B), and the Binomial probability mass. -/

/-- Spec-side: `expHeads_A = Σ_i weightA_i·heads_i`. -/
def expHeads_A (n : ℕ) (hc tc : List ℕ) (pA pB : Val) : Val :=
  vSum ((hc.zip tc).map fun e => vMul (weightA n pA pB e.1) (Option.some (e.1 : ℚ)))

/-- Spec-side: `expTails_A = Σ_i weightA_i·tails_i`. -/
def expTails_A (n : ℕ) (hc tc : List ℕ) (pA pB : Val) : Val :=
  vSum ((hc.zip tc).map fun e => vMul (weightA n pA pB e.1) (Option.some (e.2 : ℚ)))

/-- Spec-side: `expHeads_B = Σ_i weightB_i·heads_i`. -/
def expHeads_B (n : ℕ) (hc tc : List ℕ) (pA pB : Val) : Val :=
  vSum ((hc.zip tc).map fun e => vMul (weightB n pA pB e.1) (Option.some (e.1 : ℚ)))

/-- Spec-side: `expTails_B = Σ_i weightB_i·tails_i`. -/
def expTails_B (n : ℕ) (hc tc : List ℕ) (pA pB : Val) : Val :=
  vSum ((hc.zip tc).map fun e => vMul (weightB n pA pB e.1) (Option.some (e.2 : ℚ)))


/-! ### Theorems -/

/-! ### Basic facts about the float model -/

@[simp] theorem vAdd_some_some (a b : ℚ) : vAdd (Option.some a) (Option.some b) = Option.some (a + b) := rfl

@[simp] theorem vAdd_none_left (x : Val) : vAdd Option.none x = Option.none := by cases x <;> rfl

@[simp] theorem vAdd_none_right (x : Val) : vAdd x Option.none = Option.none := by cases x <;> rfl

@[simp] theorem vSub_some_some (a b : ℚ) : vSub (Option.some a) (Option.some b) = Option.some (a - b) := rfl

@[simp] theorem vSub_none_left (x : Val) : vSub Option.none x = Option.none := by cases x <;> rfl

@[simp] theorem vSub_none_right (x : Val) : vSub x Option.none = Option.none := by cases x <;> rfl

@[simp] theorem vMul_some_some (a b : ℚ) : vMul (Option.some a) (Option.some b) = Option.some (a * b) := rfl

@[simp] theorem vMul_none_left (x : Val) : vMul Option.none x = Option.none := by cases x <;> rfl

@[simp] theorem vMul_none_right (x : Val) : vMul x Option.none = Option.none := by cases x <;> rfl

@[simp] theorem vDiv_some_some (a b : ℚ) :
    vDiv (Option.some a) (Option.some b) = if b = 0 then Option.none else Option.some (a / b) := rfl

@[simp] theorem vDiv_none_left (x : Val) : vDiv Option.none x = Option.none := by cases x <;> rfl

@[simp] theorem vDiv_none_right (x : Val) : vDiv x Option.none = Option.none := by cases x <;> rfl

@[simp] theorem vPow_some (a : ℚ) (k : ℕ) : vPow (Option.some a) k = Option.some (a ^ k) := by
  cases k <;> simp [vPow]

@[simp] theorem vAbs_some (a : ℚ) : vAbs (Option.some a) = Option.some |a| := rfl

@[simp] theorem vAbs_none : vAbs Option.none = Option.none := rfl

@[simp] theorem vGt_none_left (x : Val) : vGt Option.none x = false := by cases x <;> rfl

@[simp] theorem vGt_none_right (x : Val) : vGt x Option.none = false := by cases x <;> rfl

@[simp] theorem vGt_some_some (a b : ℚ) : vGt (Option.some a) (Option.some b) = decide (b < a) := rfl

theorem vAdd_eq_some {x y : Val} {s : ℚ} (h : vAdd x y = Option.some s) :
    ∃ a b, x = Option.some a ∧ y = Option.some b ∧ s = a + b := by
  cases x with
  | none => simp [vAdd] at h
  | some a =>
    cases y with
    | none => simp [vAdd] at h
    | some b => exact ⟨a, b, rfl, rfl, by simpa [vAdd] using h.symm⟩

theorem vSub_eq_some {x y : Val} {s : ℚ} (h : vSub x y = Option.some s) :
    ∃ a b, x = Option.some a ∧ y = Option.some b ∧ s = a - b := by
  cases x with
  | none => simp [vSub] at h
  | some a =>
    cases y with
    | none => simp [vSub] at h
    | some b => exact ⟨a, b, rfl, rfl, by simpa [vSub] using h.symm⟩

theorem vMul_eq_some {x y : Val} {s : ℚ} (h : vMul x y = Option.some s) :
    ∃ a b, x = Option.some a ∧ y = Option.some b ∧ s = a * b := by
  cases x with
  | none => simp [vMul] at h
  | some a =>
    cases y with
    | none => simp [vMul] at h
    | some b => exact ⟨a, b, rfl, rfl, by simpa [vMul] using h.symm⟩

theorem vDiv_eq_some {x y : Val} {s : ℚ} (h : vDiv x y = Option.some s) :
    ∃ a b, x = Option.some a ∧ y = Option.some b ∧ b ≠ 0 ∧ s = a / b := by
  cases x with
  | none => simp [vDiv] at h
  | some a =>
    cases y with
    | none => simp [vDiv] at h
    | some b =>
      by_cases hb : b = 0
      · simp [vDiv, hb] at h
      · exact ⟨a, b, rfl, rfl, hb, by simp [vDiv, hb] at h; exact h.symm⟩

theorem foldl_vAdd_none (l : List Val) : l.foldl vAdd Option.none = Option.none := by
  induction l with
  | nil => rfl
  | cons x t ih => simpa [List.foldl_cons] using ih

theorem foldl_vAdd_some {l : List Val} {q : ℚ} :
    ∀ {a : ℚ}, l.foldl vAdd (Option.some a) = Option.some q →
      ∃ qs : List ℚ, l = qs.map Option.some ∧ a + qs.sum = q := by
  induction l with
  | nil => intro a h; exact ⟨[], rfl, by simpa using (Option.some.injEq _ _ ▸ h : _)⟩
  | cons x t ih =>
    intro a h
    cases x with
    | none => rw [List.foldl_cons, vAdd_none_right, foldl_vAdd_none] at h; exact absurd h (by simp)
    | some b =>
      rw [List.foldl_cons, vAdd_some_some] at h
      obtain ⟨qs, hqs, hsum⟩ := ih h
      exact ⟨b :: qs, by simp [hqs], by rw [List.sum_cons]; linarith⟩

theorem vSum_eq_some {l : List Val} {q : ℚ} (h : vSum l = Option.some q) :
    ∃ qs : List ℚ, l = qs.map Option.some ∧ qs.sum = q := by
  obtain ⟨qs, hqs, hsum⟩ := foldl_vAdd_some h
  exact ⟨qs, hqs, by linarith⟩

theorem vSum_map_some (qs : List ℚ) : vSum (qs.map Option.some) = Option.some qs.sum := by
  have main : ∀ (t : List ℚ) (a : ℚ),
      (t.map Option.some).foldl vAdd (Option.some a) = Option.some (a + t.sum) := by
    intro t
    induction t with
    | nil => intro a; simp
    | cons x s ih => intro a; simp [ih, add_assoc]
  simpa using main qs 0

/-! ### ℚ-level readings of the source computations -/

theorem compute_likelihood_some (obs n : ℕ) (p : ℚ) :
    compute_likelihood obs n (Option.some p) = Option.some (likeQ obs n p) := by
  simp [compute_likelihood, likeQ]

theorem compute_likelihood_none (obs n : ℕ) :
    compute_likelihood obs n Option.none = if obs = 0 ∧ n = 0 then Option.some 1 else Option.none := by
  rcases obs with _ | obs
  · rcases n with _ | n
    · simp [compute_likelihood, vPow]
    · simp [compute_likelihood, vPow]
  · simp [compute_likelihood, vPow]

theorem colSum_eq (rows : List (Val × Val)) :
    colSum rows = (vSum (rows.map Prod.fst), vSum (rows.map Prod.snd)) := by
  have main : ∀ (rs : List (Val × Val)) (a b : Val),
      rs.foldl (fun acc r => (vAdd acc.1 r.1, vAdd acc.2 r.2)) (a, b) =
        ((rs.map Prod.fst).foldl vAdd a, (rs.map Prod.snd).foldl vAdd b) := by
    intro rs
    induction rs with
    | nil => intro a b; rfl
    | cons x t ih => intro a b; simp [List.foldl_cons, ih]
  simpa [colSum, vSum] using main rows (Option.some 0) (Option.some 0)

theorem emUpdate_eq_expected_stats (n : ℕ) (hc tc : List ℕ) (pA pB : Val) :
    emUpdate n hc tc pA pB =
      (vDiv (expHeads_A n hc tc pA pB)
         (vAdd (expHeads_A n hc tc pA pB) (expTails_A n hc tc pA pB)),
       vDiv (expHeads_B n hc tc pA pB)
         (vAdd (expHeads_B n hc tc pA pB) (expTails_B n hc tc pA pB))) := by
  simp only [emUpdate, colSum_eq, expectation_A, expectation_B, List.map_map,
    expHeads_A, expTails_A, expHeads_B, expTails_B]
  rfl

/-- C3: in every EM iteration the new parameters are the ratios of
responsibility-weighted sufficient statistics: for each coin,
`theta_new = expHeads / (expHeads + expTails)` with
`expHeads_A = Σ_i weightA_i·heads_i` and `expTails_A = Σ_i weightA_i·tails_i`
(symmetrically for coin B). -/
theorem em_mstep_expected_stats (n : ℕ) (hc tc : List ℕ) (pA pB : Val) :
    (emUpdate n hc tc pA pB).1 =
      vDiv (expHeads_A n hc tc pA pB)
        (vAdd (expHeads_A n hc tc pA pB) (expTails_A n hc tc pA pB)) ∧
    (emUpdate n hc tc pA pB).2 =
      vDiv (expHeads_B n hc tc pA pB)
        (vAdd (expHeads_B n hc tc pA pB) (expTails_B n hc tc pA pB)) := by
  rw [emUpdate_eq_expected_stats]
  exact ⟨rfl, rfl⟩

theorem likeQ_zero_left {k n : ℕ} (hk : 0 < k) : likeQ k n 0 = 0 := by
  simp [likeQ, zero_pow hk.ne']

theorem likeQ_one_of_lt {k n : ℕ} (hkn : k < n) : likeQ k n 1 = 0 := by
  have h : n - k ≠ 0 := by omega
  simp [likeQ, zero_pow h]

/-- C5: the Likelihood Evaluator returns the Binomial probability mass
`C(n,k)·p^k·(1−p)^(n−k)` for every `0 ≤ k ≤ n` and `p ∈ [0,1]`; the
degenerate inputs `p = 0, k > 0` and `p = 1, k < n` return probability 0
(and, the evaluator being a total function, no error is raised). -/
theorem binomialLikelihood_formula (k n : ℕ) (p : ℚ) (hk : k ≤ n)
    (hp0 : 0 ≤ p) (hp1 : p ≤ 1) :
    compute_likelihood k n (Option.some p) = Option.some (likeQ k n p) ∧
    (p = 0 → 0 < k → compute_likelihood k n (Option.some p) = Option.some 0) ∧
    (p = 1 → k < n → compute_likelihood k n (Option.some p) = Option.some 0) := by
  refine ⟨compute_likelihood_some k n p, ?_, ?_⟩
  · intro h0 hkpos
    subst h0
    rw [compute_likelihood_some, likeQ_zero_left hkpos]
  · intro h1 hkn
    subst h1
    rw [compute_likelihood_some, likeQ_one_of_lt hkn]

/-- Witness for C5 at `k = 1`, `n = 2`, `p = 0` (a degenerate input). -/
theorem binomialLikelihood_formula_witness :
    ((1:ℕ) ≤ 2 ∧ (0:ℚ) ≤ 0 ∧ (0:ℚ) ≤ 1) ∧
    (compute_likelihood 1 2 (Option.some 0) = Option.some (likeQ 1 2 0) ∧
     ((0:ℚ) = 0 → 0 < 1 → compute_likelihood 1 2 (Option.some 0) = Option.some 0) ∧
     ((0:ℚ) = 1 → 1 < 2 → compute_likelihood 1 2 (Option.some 0) = Option.some 0)) :=
  ⟨by norm_num, binomialLikelihood_formula 1 2 0 (by norm_num) (by norm_num) (by norm_num)⟩

/-! ### Loop unfolding and basic run facts -/

theorem vDiv_some_zero (x : Val) : vDiv x (Option.some 0) = Option.none := by
  cases x <;> simp [vDiv]

theorem foldl_vAdd_mem_none {l : List Val} (h : Option.none ∈ l) (a : Val) :
    l.foldl vAdd a = Option.none := by
  induction l generalizing a with
  | nil => simp at h
  | cons x t ih =>
    rcases List.mem_cons.mp h with hx | ht
    · rw [← hx, List.foldl_cons, vAdd_none_right, foldl_vAdd_none]
    · exact ih ht _

theorem vSum_none {l : List Val} (h : Option.none ∈ l) : vSum l = Option.none :=
  foldl_vAdd_mem_none h _

theorem emLoop_exit {n : ℕ} {eps : ℚ} {fuel : ℕ} {hc tc : List ℕ} {pA pB : Val}
    {tr : List (Val × Val)} {imp : Val} (h : vGt imp (Option.some eps) = false) :
    emLoop n eps fuel hc tc pA pB tr imp = Except.ok ⟨hc, tc, pA, pB, tr⟩ := by
  rw [emLoop.eq_def]
  simp [h]

theorem emLoop_zero_fuel {n : ℕ} {eps : ℚ} {hc tc : List ℕ} {pA pB : Val}
    {tr : List (Val × Val)} {imp : Val} (h : vGt imp (Option.some eps) = true) :
    emLoop n eps 0 hc tc pA pB tr imp = Except.error EMErr.indexError := by
  rw [emLoop.eq_def]
  simp [h]

theorem emLoop_succ {n : ℕ} {eps : ℚ} {fuel : ℕ} {hc tc : List ℕ} {pA pB : Val}
    {tr : List (Val × Val)} {imp : Val} (h : vGt imp (Option.some eps) = true) :
    emLoop n eps (fuel + 1) hc tc pA pB tr imp =
      emLoop n eps fuel hc tc (emUpdate n hc tc pA pB).1 (emUpdate n hc tc pA pB).2
        (tr ++ [emUpdate n hc tc pA pB])
        (vMax (vAbs (vSub (emUpdate n hc tc pA pB).1 pA))
          (vAbs (vSub (emUpdate n hc tc pA pB).2 pB))) := by
  conv_lhs => rw [emLoop.eq_def]
  simp [h]

theorem runEM_eq (n : ℕ) (hc tc : List ℕ) (eps : ℚ) (pA0 pB0 : Val) :
    runEM n hc tc eps pA0 pB0 =
      emLoop n eps 98 hc tc (emUpdate n hc tc pA0 pB0).1 (emUpdate n hc tc pA0 pB0).2
        [(pA0, pB0), emUpdate n hc tc pA0 pB0]
        (vMax (vAbs (vSub (emUpdate n hc tc pA0 pB0).1 pA0))
          (vAbs (vSub (emUpdate n hc tc pA0 pB0).2 pB0))) := rfl

/-! ### Degenerate E-steps produce nan, not an error -/

theorem weightA_degenerate {n : ℕ} {pA pB : Val} {h : ℕ}
    (hdeg : vAdd (compute_likelihood h n pA) (compute_likelihood h n pB) = Option.some 0) :
    weightA n pA pB h = Option.none := by
  unfold weightA
  rw [hdeg]
  exact vDiv_some_zero _

theorem weightB_degenerate {n : ℕ} {pA pB : Val} {h : ℕ}
    (hdeg : vAdd (compute_likelihood h n pA) (compute_likelihood h n pB) = Option.some 0) :
    weightB n pA pB h = Option.none := by
  unfold weightB
  rw [hdeg]
  exact vDiv_some_zero _

theorem emUpdate_degenerate {n : ℕ} {hc tc : List ℕ} {pA pB : Val} {e : ℕ × ℕ}
    (he : e ∈ hc.zip tc)
    (hdeg : vAdd (compute_likelihood e.1 n pA) (compute_likelihood e.1 n pB) = Option.some 0) :
    emUpdate n hc tc pA pB = (Option.none, Option.none) := by
  have hA : (colSum (expectation_A n hc tc pA pB)).1 = Option.none := by
    rw [colSum_eq]
    refine vSum_none (List.mem_map.mpr ?_)
    refine ⟨_, List.mem_map.mpr ⟨e, he, rfl⟩, ?_⟩
    simp [weightA_degenerate hdeg]
  have hB : (colSum (expectation_B n hc tc pA pB)).1 = Option.none := by
    rw [colSum_eq]
    refine vSum_none (List.mem_map.mpr ?_)
    refine ⟨_, List.mem_map.mpr ⟨e, he, rfl⟩, ?_⟩
    simp [weightB_degenerate hdeg]
  rw [emUpdate, hA, hB]
  simp

theorem runEM_degenerate {n : ℕ} {hc tc : List ℕ} {eps : ℚ} {pA0 pB0 : Val} {e : ℕ × ℕ}
    (he : e ∈ hc.zip tc)
    (hdeg : vAdd (compute_likelihood e.1 n pA0) (compute_likelihood e.1 n pB0) = Option.some 0) :
    runEM n hc tc eps pA0 pB0 =
      Except.ok ⟨hc, tc, Option.none, Option.none,
        [(pA0, pB0), (Option.none, Option.none)]⟩ := by
  rw [runEM_eq, emUpdate_degenerate he hdeg]
  simp only [vSub_none_left, vAbs_none]
  have hmax : vMax Option.none Option.none = Option.none := by simp [vMax]
  rw [hmax]
  exact emLoop_exit (by simp)

/-- C1 (amended): if during an E-step both likelihoods `L_A` and `L_B`
of some experiment's head count are 0, the weight computation divides by
zero and the weights are nan; the nan propagates to both updated
parameters, the loop guard `improvement > epsilon` is false on nan, and
RunEM returns normally with a result whose parameters are nan.  No
error is raised: the source has no NumericalDegeneracy condition. -/
theorem em_degenerate_estep_returns_nan (n : ℕ) (hc tc : List ℕ) (eps : ℚ)
    (pA0 pB0 : Val) (e : ℕ × ℕ) (he : e ∈ hc.zip tc)
    (hdeg : vAdd (compute_likelihood e.1 n pA0) (compute_likelihood e.1 n pB0) = Option.some 0) :
    runEM n hc tc eps pA0 pB0 =
      Except.ok ⟨hc, tc, Option.none, Option.none,
        [(pA0, pB0), (Option.none, Option.none)]⟩ :=
  runEM_degenerate he hdeg

/-- Witness for C1 (amended) at the degenerate input `θ = (0, 1)`,
one experiment of 10 tosses with 5 heads. -/
theorem em_degenerate_estep_returns_nan_witness :
    ((5, 5) ∈ [5].zip [5] ∧
     vAdd (compute_likelihood 5 10 (Option.some 0)) (compute_likelihood 5 10 (Option.some 1)) =
       Option.some 0) ∧
    runEM 10 [5] [5] (1/1000) (Option.some 0) (Option.some 1) =
      Except.ok ⟨[5], [5], Option.none, Option.none,
        [(Option.some 0, Option.some 1), (Option.none, Option.none)]⟩ := by
  have hdeg : vAdd (compute_likelihood 5 10 (Option.some 0)) (compute_likelihood 5 10 (Option.some 1)) =
      Option.some 0 := by
    rw [compute_likelihood_some, compute_likelihood_some,
      likeQ_zero_left (by norm_num), likeQ_one_of_lt (by norm_num)]
    simp
  exact ⟨⟨by simp, hdeg⟩,
    em_degenerate_estep_returns_nan 10 [5] [5] (1/1000) _ _ (5, 5) (by simp) hdeg⟩

/-- C1 counterexample: with one experiment of 10 tosses and 5 heads and
current parameters `θ = (0, 1)`, both likelihoods are 0 (their sum is
`some 0`), yet RunEM does not fail with any error: it divides by zero
and returns a result containing nan parameters. -/
theorem em_degenerate_estep_cex :
    vAdd (compute_likelihood 5 10 (Option.some 0)) (compute_likelihood 5 10 (Option.some 1)) =
      Option.some 0 ∧
    runEM 10 [5] [5] (3/2000) (Option.some 0) (Option.some 1) =
      Except.ok ⟨[5], [5], Option.none, Option.none,
        [(Option.some 0, Option.some 1), (Option.none, Option.none)]⟩ := by
  have hdeg : vAdd (compute_likelihood 5 10 (Option.some 0)) (compute_likelihood 5 10 (Option.some 1)) =
      Option.some 0 := by
    rw [compute_likelihood_some, compute_likelihood_some,
      likeQ_zero_left (by norm_num), likeQ_one_of_lt (by norm_num)]
    simp
  exact ⟨hdeg, @runEM_degenerate 10 [5] [5] (3/2000) (Option.some 0) (Option.some 1) (5, 5) (by simp) hdeg⟩

/-! ### Termination within the iteration arrays (C2) -/

theorem emLoop_terminates (n : ℕ) (eps : ℚ) :
    ∀ (fuel : ℕ) (hc tc : List ℕ) (pA pB : Val) (tr : List (Val × Val)) (imp : Val),
      (∃ r : EMResult, emLoop n eps fuel hc tc pA pB tr imp = Except.ok r ∧
        r.trace.length ≤ tr.length + fuel) ∨
      emLoop n eps fuel hc tc pA pB tr imp = Except.error EMErr.indexError := by
  intro fuel
  induction fuel with
  | zero =>
    intro hc tc pA pB tr imp
    by_cases h : vGt imp (Option.some eps) = true
    · exact Or.inr (emLoop_zero_fuel h)
    · exact Or.inl ⟨_, emLoop_exit (by simpa using h), by simp⟩
  | succ fuel ih =>
    intro hc tc pA pB tr imp
    by_cases h : vGt imp (Option.some eps) = true
    · rw [emLoop_succ h]
      rcases ih hc tc (emUpdate n hc tc pA pB).1 (emUpdate n hc tc pA pB).2
          (tr ++ [emUpdate n hc tc pA pB])
          (vMax (vAbs (vSub (emUpdate n hc tc pA pB).1 pA))
            (vAbs (vSub (emUpdate n hc tc pA pB).2 pB))) with hok | herr
      · obtain ⟨r, hr, hlen⟩ := hok
        refine Or.inl ⟨r, hr, ?_⟩
        simp only [List.length_append, List.length_cons, List.length_nil] at hlen
        omega
      · exact Or.inr herr
    · exact Or.inl ⟨_, emLoop_exit (by simpa using h), by simp⟩

/-- C2 (amended): for every nonempty dataset, starting parameters and
epsilon, RunEM always terminates within the capacity of the 100-entry
iteration arrays — it never loops unboundedly.  Either the loop guard
`improvement > epsilon` eventually fails — which happens when the
improvement threshold is met, but also when `improvement` is nan after
a degenerate E-step — and the run returns the final parameters with a
trace of at most 100 parameter vectors, or the guard still holds after
the last free slot was written and the next write `pA_heads[j+1]` fails
with an IndexError.  The source has no NonConvergence condition. -/
theorem runEM_terminates_bounded (n : ℕ) (hc tc : List ℕ) (eps : ℚ) (pA0 pB0 : Val)
    (hne : hc.zip tc ≠ []) :
    (∃ r : EMResult, runEM n hc tc eps pA0 pB0 = Except.ok r ∧ r.trace.length ≤ 100) ∨
      runEM n hc tc eps pA0 pB0 = Except.error EMErr.indexError := by
  rw [runEM_eq]
  rcases emLoop_terminates n eps 98 hc tc (emUpdate n hc tc pA0 pB0).1
      (emUpdate n hc tc pA0 pB0).2 [(pA0, pB0), emUpdate n hc tc pA0 pB0]
      (vMax (vAbs (vSub (emUpdate n hc tc pA0 pB0).1 pA0))
        (vAbs (vSub (emUpdate n hc tc pA0 pB0).2 pB0))) with hok | herr
  · obtain ⟨r, hr, hlen⟩ := hok
    refine Or.inl ⟨r, hr, ?_⟩
    simp only [List.length_cons, List.length_nil] at hlen
    omega
  · exact Or.inr herr

/-- Witness for C2 (amended) on a one-experiment dataset. -/
theorem runEM_terminates_bounded_witness :
    ([1].zip [0] ≠ ([] : List (ℕ × ℕ))) ∧
    ((∃ r : EMResult, runEM 1 [1] [0] (1/1000) (Option.some (1/2)) (Option.some (1/2)) =
        Except.ok r ∧ r.trace.length ≤ 100) ∨
      runEM 1 [1] [0] (1/1000) (Option.some (1/2)) (Option.some (1/2)) =
        Except.error EMErr.indexError) :=
  ⟨by simp,
   runEM_terminates_bounded 1 [1] [0] (1/1000) (Option.some (1/2)) (Option.some (1/2)) (by simp)⟩

/-- C2 counterexample: at the degenerate input below, RunEM terminates
and returns a result without any error, although the improvement
threshold is not met: the exit-iteration improvement is nan, and the
float comparisons `improvement <= epsilon` and `improvement > epsilon`
are both false.  So the claimed dichotomy (threshold met and return, or
NonConvergence failure) does not hold of the source; there is no
NonConvergence condition at all. -/
theorem runEM_cap_dichotomy_cex :
    runEM 10 [3] [7] (1/1000) (Option.some 1) (Option.some 0) =
      Except.ok ⟨[3], [7], Option.none, Option.none,
        [(Option.some 1, Option.some 0), (Option.none, Option.none)]⟩ ∧
    vLe (vMax (vAbs (vSub Option.none (Option.some 1))) (vAbs (vSub Option.none (Option.some 0))))
        (Option.some (1/1000)) = false ∧
    vGt (vMax (vAbs (vSub Option.none (Option.some 1))) (vAbs (vSub Option.none (Option.some 0))))
        (Option.some (1/1000)) = false := by
  have hdeg : vAdd (compute_likelihood 3 10 (Option.some 1)) (compute_likelihood 3 10 (Option.some 0)) =
      Option.some 0 := by
    rw [compute_likelihood_some, compute_likelihood_some,
      likeQ_one_of_lt (by norm_num), likeQ_zero_left (by norm_num)]
    simp
  exact ⟨@runEM_degenerate 10 [3] [7] (1/1000) (Option.some 1) (Option.some 0) (3, 7) (by simp) hdeg, by simp [vMax, vLe], by simp [vMax]⟩

/-! ### The loop only reads the dataset (C10) -/

theorem emLoop_ok_dataset (n : ℕ) (eps : ℚ) :
    ∀ (fuel : ℕ) (hc tc : List ℕ) (pA pB : Val) (tr : List (Val × Val)) (imp : Val)
      (r : EMResult),
      emLoop n eps fuel hc tc pA pB tr imp = Except.ok r →
      r.head_counts = hc ∧ r.tail_counts = tc := by
  intro fuel
  induction fuel with
  | zero =>
    intro hc tc pA pB tr imp r h
    by_cases hg : vGt imp (Option.some eps) = true
    · rw [emLoop_zero_fuel hg] at h
      exact absurd h (by simp)
    · rw [emLoop_exit (by simpa using hg)] at h
      obtain rfl := (Except.ok.inj h).symm
      exact ⟨rfl, rfl⟩
  | succ fuel ih =>
    intro hc tc pA pB tr imp r h
    by_cases hg : vGt imp (Option.some eps) = true
    · rw [emLoop_succ hg] at h
      exact ih hc tc _ _ _ _ r h
    · rw [emLoop_exit (by simpa using hg)] at h
      obtain rfl := (Except.ok.inj h).symm
      exact ⟨rfl, rfl⟩

/-- C10: RunEM never modifies its input dataset: the `(heads, tails)`
sequences carried through the whole E-M loop are returned exactly as
they were passed in; the loop only reads them. -/
theorem runEM_preserves_dataset (n : ℕ) (hc tc : List ℕ) (eps : ℚ) (pA0 pB0 : Val)
    (r : EMResult) (h : runEM n hc tc eps pA0 pB0 = Except.ok r) :
    r.head_counts = hc ∧ r.tail_counts = tc := by
  rw [runEM_eq] at h
  exact emLoop_ok_dataset n eps 98 hc tc _ _ _ _ r h

/-- Witness for C10: a fully evaluated two-iteration run. -/
theorem runEM_preserves_dataset_witness :
    runEM 2 [2] [0] (1/1000) (Option.some (1/2)) (Option.some (1/2)) =
      Except.ok ⟨[2], [0], Option.some 1, Option.some 1,
        [(Option.some (1/2), Option.some (1/2)), (Option.some 1, Option.some 1),
         (Option.some 1, Option.some 1)]⟩ ∧
    EMResult.head_counts
        ⟨[2], [0], Option.some 1, Option.some 1,
         [(Option.some (1/2), Option.some (1/2)), (Option.some 1, Option.some 1),
          (Option.some 1, Option.some 1)]⟩ = [2] ∧
    EMResult.tail_counts
        ⟨[2], [0], Option.some 1, Option.some 1,
         [(Option.some (1/2), Option.some (1/2)), (Option.some 1, Option.some 1),
          (Option.some 1, Option.some 1)]⟩ = [0] := by
  have h1 : emUpdate 2 [2] [0] (Option.some (1/2)) (Option.some (1/2)) =
      (Option.some 1, Option.some 1) := by
    simp only [emUpdate, expectation_A, expectation_B, colSum, List.zip_cons_cons,
      List.zip_nil_right, List.map_cons, List.map_nil, List.foldl_cons, List.foldl_nil]
    norm_num [weightA, weightB, compute_likelihood, vAdd, vMul, vDiv, vPow, vSub]
  have h2 : emUpdate 2 [2] [0] (Option.some 1) (Option.some 1) =
      (Option.some 1, Option.some 1) := by
    simp only [emUpdate, expectation_A, expectation_B, colSum, List.zip_cons_cons,
      List.zip_nil_right, List.map_cons, List.map_nil, List.foldl_cons, List.foldl_nil]
    norm_num [weightA, weightB, compute_likelihood, vAdd, vMul, vDiv, vPow, vSub]
  have hrun : runEM 2 [2] [0] (1/1000) (Option.some (1/2)) (Option.some (1/2)) =
      Except.ok ⟨[2], [0], Option.some 1, Option.some 1,
        [(Option.some (1/2), Option.some (1/2)), (Option.some 1, Option.some 1),
         (Option.some 1, Option.some 1)]⟩ := by
    rw [runEM_eq, h1]
    dsimp only
    rw [show (98:ℕ) = 97 + 1 from rfl]
    rw [emLoop_succ (by norm_num [vMax, vAbs, vSub, vGt, abs_of_nonneg])]
    rw [h2]
    dsimp only
    rw [emLoop_exit (by norm_num [vMax, vAbs, vSub, vGt])]
    rfl
  exact ⟨hrun,
    (runEM_preserves_dataset 2 [2] [0] (1/1000) (Option.some (1/2)) (Option.some (1/2)) _ hrun).1,
    (runEM_preserves_dataset 2 [2] [0] (1/1000) (Option.some (1/2)) (Option.some (1/2)) _ hrun).2⟩

/-! ### The reference MLE (C6, C7) -/

theorem MLE_A_fold (labeled : List (Bool × ℕ)) :
    ∀ s : ℚ, labeled.foldl (fun s e => if e.1 then s else s + (e.2 : ℚ)) s =
      s + totalHeads false labeled := by
  induction labeled with
  | nil => intro s; simp [totalHeads]
  | cons e t ih =>
    intro s
    by_cases he : e.1 = true
    · simp [List.foldl_cons, he, ih, totalHeads, List.filter_cons]
    · simp only [Bool.not_eq_true] at he
      simp [List.foldl_cons, he, ih, totalHeads, List.filter_cons, add_assoc]

theorem MLE_B_fold (labeled : List (Bool × ℕ)) :
    ∀ s : ℚ, labeled.foldl (fun s e => if e.1 then s + (e.2 : ℚ) else s) s =
      s + totalHeads true labeled := by
  induction labeled with
  | nil => intro s; simp [totalHeads]
  | cons e t ih =>
    intro s
    by_cases he : e.1 = true
    · simp [List.foldl_cons, he, ih, totalHeads, List.filter_cons, add_assoc]
    · simp only [Bool.not_eq_true] at he
      simp [List.foldl_cons, he, ih, totalHeads, List.filter_cons]

theorem numSelected_true_eq (labeled : List (Bool × ℕ)) :
    (labeled.filter (fun e => e.1)).length = numSelected true labeled := by
  simp [numSelected]

theorem length_filter_split (labeled : List (Bool × ℕ)) :
    labeled.length = (labeled.filter (fun e => e.1)).length + numSelected false labeled := by
  induction labeled with
  | nil => simp [numSelected]
  | cons e t ih =>
    by_cases he : e.1 = true
    · simp [List.filter_cons, he, numSelected] at ih ⊢
      omega
    · simp only [Bool.not_eq_true] at he
      simp [List.filter_cons, he, numSelected] at ih ⊢
      omega

theorem numSelected_false_eq (labeled : List (Bool × ℕ)) :
    labeled.length - (labeled.filter (fun e => e.1)).length = numSelected false labeled := by
  have h := length_filter_split labeled
  omega

/-- C6: on a labeled dataset in which both coins appear (with a positive
per-experiment toss count `n`), ComputeMLE returns, for each coin, the
total heads of the experiments labeled with that coin divided by their
total tosses (`count · n`). -/
theorem computeMLE_labeled_totals (n : ℕ) (labeled : List (Bool × ℕ))
    (hA : numSelected false labeled ≠ 0) (hB : numSelected true labeled ≠ 0) (hn : n ≠ 0) :
    computeMLE n labeled = Except.ok
      (Option.some (totalHeads false labeled / ((numSelected false labeled * n : ℕ) : ℚ)),
       Option.some (totalHeads true labeled / ((numSelected true labeled * n : ℕ) : ℚ))) := by
  have hA' : (((numSelected false labeled * n : ℕ) : ℚ)) ≠ 0 :=
    Nat.cast_ne_zero.mpr (Nat.mul_ne_zero hA hn)
  have hB' : (((numSelected true labeled * n : ℕ) : ℚ)) ≠ 0 :=
    Nat.cast_ne_zero.mpr (Nat.mul_ne_zero hB hn)
  have hAne : ¬(labeled.length - (labeled.filter (fun e => e.1)).length = 0) := by
    rw [numSelected_false_eq]; exact hA
  have hBne : ¬((labeled.filter (fun e => e.1)).length = 0) := by
    rw [numSelected_true_eq]; exact hB
  rw [computeMLE, if_neg hAne, if_neg hBne, MLE_A_fold, MLE_B_fold,
    numSelected_false_eq, numSelected_true_eq,
    vDiv_some_some, vDiv_some_some, if_neg hA', if_neg hB', zero_add, zero_add]

/-- Witness for C6: 3 A-experiments with heads [9,8,7] and 2
B-experiments with heads [1,2], 10 tosses each, give exactly
`theta_A = 24/30 = 0.8` and `theta_B = 3/20 = 0.15`. -/
theorem computeMLE_labeled_totals_witness :
    (numSelected false [(false,9),(false,8),(false,7),(true,1),(true,2)] ≠ 0 ∧
     numSelected true [(false,9),(false,8),(false,7),(true,1),(true,2)] ≠ 0 ∧
     (10:ℕ) ≠ 0) ∧
    computeMLE 10 [(false,9),(false,8),(false,7),(true,1),(true,2)] =
      Except.ok (Option.some (4/5), Option.some (3/20)) := by
  have h := computeMLE_labeled_totals 10 [(false,9),(false,8),(false,7),(true,1),(true,2)]
    (by simp [numSelected, List.filter_cons]) (by simp [numSelected, List.filter_cons]) (by norm_num)
  refine ⟨⟨by simp [numSelected, List.filter_cons], by simp [numSelected, List.filter_cons], by norm_num⟩, ?_⟩
  rw [h]
  norm_num [totalHeads, numSelected, List.filter_cons]

/-- C7: for every labeled dataset in which some coin was never selected
(zero tosses for that coin), ComputeMLE fails with the source's
division-by-zero error (Python ZeroDivisionError: the never-accumulated
total is the builtin float `0.0` divided by the builtin int `0` from
`np.count_nonzero`) — the DivisionUndefined condition — rather than
returning a NaN/inf estimate. -/
theorem computeMLE_unselected_fails (n : ℕ) (labeled : List (Bool × ℕ))
    (h : numSelected false labeled = 0 ∨ numSelected true labeled = 0) :
    computeMLE n labeled = Except.error MLEErr.zeroDivisionError := by
  rw [computeMLE]
  rcases h with hA | hB
  · rw [if_pos (by rw [numSelected_false_eq]; exact hA)]
  · by_cases hA0 : labeled.length - (labeled.filter (fun e => e.1)).length = 0
    · rw [if_pos hA0]
    · rw [if_neg hA0, if_pos (by rw [numSelected_true_eq]; exact hB)]

/-- Witness for C7: the all-A labeled dataset with heads [9, 8]
(coin B never selected) makes ComputeMLE raise the division error. -/
theorem computeMLE_unselected_fails_witness :
    (numSelected false [((false:Bool),(9:ℕ)),(false,8)] = 0 ∨
     numSelected true [((false:Bool),(9:ℕ)),(false,8)] = 0) ∧
    computeMLE 10 [((false:Bool),(9:ℕ)),(false,8)] = Except.error MLEErr.zeroDivisionError :=
  ⟨Or.inr (by simp [numSelected, List.filter_cons]),
   computeMLE_unselected_fails 10 _ (Or.inr (by simp [numSelected, List.filter_cons]))⟩

/-! ### ℚ-level reading of one EM iteration -/

theorem likeQ_nonneg {k n : ℕ} {p : ℚ} (h0 : 0 ≤ p) (h1 : p ≤ 1) : 0 ≤ likeQ k n p := by
  have h1p : (0:ℚ) ≤ 1 - p := by linarith
  exact mul_nonneg (mul_nonneg (by positivity) (pow_nonneg h0 _)) (pow_nonneg h1p _)

theorem weightA_some {n : ℕ} {a b : ℚ} {h : ℕ}
    (hP : likeQ h n a + likeQ h n b ≠ 0) :
    weightA n (Option.some a) (Option.some b) h = Option.some (wQA n a b h) := by
  unfold weightA wQA
  rw [compute_likelihood_some, compute_likelihood_some, vAdd_some_some, vDiv_some_some,
    if_neg hP]

theorem weightB_some {n : ℕ} {a b : ℚ} {h : ℕ}
    (hP : likeQ h n a + likeQ h n b ≠ 0) :
    weightB n (Option.some a) (Option.some b) h = Option.some (wQB n a b h) := by
  unfold weightB wQB
  rw [compute_likelihood_some, compute_likelihood_some, vAdd_some_some, vDiv_some_some,
    if_neg hP]

theorem wQA_mem {n : ℕ} {a b : ℚ} {h : ℕ} (ha0 : 0 ≤ a) (ha1 : a ≤ 1)
    (hb0 : 0 ≤ b) (hb1 : b ≤ 1) (hP : likeQ h n a + likeQ h n b ≠ 0) :
    0 ≤ wQA n a b h ∧ wQA n a b h ≤ 1 := by
  have la : 0 ≤ likeQ h n a := likeQ_nonneg ha0 ha1
  have lb : 0 ≤ likeQ h n b := likeQ_nonneg hb0 hb1
  have hpos : 0 < likeQ h n a + likeQ h n b := lt_of_le_of_ne (by linarith) (Ne.symm hP)
  constructor
  · exact div_nonneg la (le_of_lt hpos)
  · exact (div_le_one hpos).mpr (by linarith)

theorem wQB_mem {n : ℕ} {a b : ℚ} {h : ℕ} (ha0 : 0 ≤ a) (ha1 : a ≤ 1)
    (hb0 : 0 ≤ b) (hb1 : b ≤ 1) (hP : likeQ h n a + likeQ h n b ≠ 0) :
    0 ≤ wQB n a b h ∧ wQB n a b h ≤ 1 := by
  have la : 0 ≤ likeQ h n a := likeQ_nonneg ha0 ha1
  have lb : 0 ≤ likeQ h n b := likeQ_nonneg hb0 hb1
  have hpos : 0 < likeQ h n a + likeQ h n b := lt_of_le_of_ne (by linarith) (Ne.symm hP)
  constructor
  · exact div_nonneg lb (le_of_lt hpos)
  · exact (div_le_one hpos).mpr (by linarith)

theorem vSum_map_some_comp {α : Type} (l : List α) (g : α → ℚ) :
    vSum (l.map fun x => Option.some (g x)) = Option.some ((l.map g).sum) := by
  have h1 : (l.map fun x => Option.some (g x)) = (l.map g).map Option.some := by
    rw [List.map_map]
    rfl
  rw [h1, vSum_map_some]

theorem expectation_A_some {n : ℕ} {hc tc : List ℕ} {a b : ℚ}
    (HP : ∀ e ∈ hc.zip tc, likeQ e.1 n a + likeQ e.1 n b ≠ 0) :
    expectation_A n hc tc (Option.some a) (Option.some b) =
      (hc.zip tc).map (fun e => (Option.some (wQA n a b e.1 * (e.1 : ℚ)),
        Option.some (wQA n a b e.1 * (e.2 : ℚ)))) := by
  unfold expectation_A
  refine List.map_congr_left ?_
  intro e he
  rw [weightA_some (HP e he), vMul_some_some, vMul_some_some]

theorem expectation_B_some {n : ℕ} {hc tc : List ℕ} {a b : ℚ}
    (HP : ∀ e ∈ hc.zip tc, likeQ e.1 n a + likeQ e.1 n b ≠ 0) :
    expectation_B n hc tc (Option.some a) (Option.some b) =
      (hc.zip tc).map (fun e => (Option.some (wQB n a b e.1 * (e.1 : ℚ)),
        Option.some (wQB n a b e.1 * (e.2 : ℚ)))) := by
  unfold expectation_B
  refine List.map_congr_left ?_
  intro e he
  rw [weightB_some (HP e he), vMul_some_some, vMul_some_some]

theorem colSum_expectation_A {n : ℕ} {hc tc : List ℕ} {a b : ℚ}
    (HP : ∀ e ∈ hc.zip tc, likeQ e.1 n a + likeQ e.1 n b ≠ 0) :
    colSum (expectation_A n hc tc (Option.some a) (Option.some b)) =
      (Option.some (expHeadsQ_A n hc tc a b), Option.some (expTailsQ_A n hc tc a b)) := by
  rw [colSum_eq, expectation_A_some HP]
  have h1 : ((hc.zip tc).map (fun e => (Option.some (wQA n a b e.1 * (e.1 : ℚ)),
      Option.some (wQA n a b e.1 * (e.2 : ℚ))))).map Prod.fst =
      (hc.zip tc).map (fun e => Option.some (wQA n a b e.1 * (e.1 : ℚ))) := by
    rw [List.map_map]
    rfl
  have h2 : ((hc.zip tc).map (fun e => (Option.some (wQA n a b e.1 * (e.1 : ℚ)),
      Option.some (wQA n a b e.1 * (e.2 : ℚ))))).map Prod.snd =
      (hc.zip tc).map (fun e => Option.some (wQA n a b e.1 * (e.2 : ℚ))) := by
    rw [List.map_map]
    rfl
  rw [h1, h2, vSum_map_some_comp, vSum_map_some_comp]
  rfl

theorem colSum_expectation_B {n : ℕ} {hc tc : List ℕ} {a b : ℚ}
    (HP : ∀ e ∈ hc.zip tc, likeQ e.1 n a + likeQ e.1 n b ≠ 0) :
    colSum (expectation_B n hc tc (Option.some a) (Option.some b)) =
      (Option.some (expHeadsQ_B n hc tc a b), Option.some (expTailsQ_B n hc tc a b)) := by
  rw [colSum_eq, expectation_B_some HP]
  have h1 : ((hc.zip tc).map (fun e => (Option.some (wQB n a b e.1 * (e.1 : ℚ)),
      Option.some (wQB n a b e.1 * (e.2 : ℚ))))).map Prod.fst =
      (hc.zip tc).map (fun e => Option.some (wQB n a b e.1 * (e.1 : ℚ))) := by
    rw [List.map_map]
    rfl
  have h2 : ((hc.zip tc).map (fun e => (Option.some (wQB n a b e.1 * (e.1 : ℚ)),
      Option.some (wQB n a b e.1 * (e.2 : ℚ))))).map Prod.snd =
      (hc.zip tc).map (fun e => Option.some (wQB n a b e.1 * (e.2 : ℚ))) := by
    rw [List.map_map]
    rfl
  rw [h1, h2, vSum_map_some_comp, vSum_map_some_comp]
  rfl

theorem emUpdate_some_HP {n : ℕ} {hc tc : List ℕ} {a b : ℚ} {x : ℚ}
    (hx : (emUpdate n hc tc (Option.some a) (Option.some b)).1 = Option.some x) :
    ∀ e ∈ hc.zip tc, likeQ e.1 n a + likeQ e.1 n b ≠ 0 := by
  intro e he hzero
  have hw : weightA n (Option.some a) (Option.some b) e.1 = Option.none := by
    unfold weightA
    rw [compute_likelihood_some, compute_likelihood_some, vAdd_some_some, vDiv_some_some,
      if_pos hzero]
  have hnone : (colSum (expectation_A n hc tc (Option.some a) (Option.some b))).1 =
      Option.none := by
    rw [colSum_eq]
    refine vSum_none (List.mem_map.mpr ⟨_, List.mem_map.mpr ⟨e, he, rfl⟩, ?_⟩)
    simp [hw]
  rw [emUpdate] at hx
  dsimp only at hx
  rw [hnone] at hx
  simp at hx

theorem emUpdate_some_fst {n : ℕ} {hc tc : List ℕ} {a b : ℚ} {x : ℚ}
    (hx : (emUpdate n hc tc (Option.some a) (Option.some b)).1 = Option.some x) :
    expHeadsQ_A n hc tc a b + expTailsQ_A n hc tc a b ≠ 0 ∧
    x = expHeadsQ_A n hc tc a b / (expHeadsQ_A n hc tc a b + expTailsQ_A n hc tc a b) := by
  have HP := emUpdate_some_HP hx
  rw [emUpdate] at hx
  dsimp only at hx
  rw [colSum_expectation_A HP] at hx
  dsimp only at hx
  rw [vAdd_some_some, vDiv_some_some] at hx
  by_cases hd : expHeadsQ_A n hc tc a b + expTailsQ_A n hc tc a b = 0
  · rw [if_pos hd] at hx
    exact absurd hx (by simp)
  · rw [if_neg hd] at hx
    exact ⟨hd, (Option.some.inj hx).symm⟩

theorem emUpdate_some_HP_snd {n : ℕ} {hc tc : List ℕ} {a b : ℚ} {y : ℚ}
    (hy : (emUpdate n hc tc (Option.some a) (Option.some b)).2 = Option.some y) :
    ∀ e ∈ hc.zip tc, likeQ e.1 n a + likeQ e.1 n b ≠ 0 := by
  intro e he hzero
  have hw : weightB n (Option.some a) (Option.some b) e.1 = Option.none := by
    unfold weightB
    rw [compute_likelihood_some, compute_likelihood_some, vAdd_some_some, vDiv_some_some,
      if_pos hzero]
  have hnone : (colSum (expectation_B n hc tc (Option.some a) (Option.some b))).1 =
      Option.none := by
    rw [colSum_eq]
    refine vSum_none (List.mem_map.mpr ⟨_, List.mem_map.mpr ⟨e, he, rfl⟩, ?_⟩)
    simp [hw]
  rw [emUpdate] at hy
  dsimp only at hy
  rw [hnone] at hy
  simp at hy

theorem emUpdate_some_snd {n : ℕ} {hc tc : List ℕ} {a b : ℚ} {y : ℚ}
    (hy : (emUpdate n hc tc (Option.some a) (Option.some b)).2 = Option.some y) :
    expHeadsQ_B n hc tc a b + expTailsQ_B n hc tc a b ≠ 0 ∧
    y = expHeadsQ_B n hc tc a b / (expHeadsQ_B n hc tc a b + expTailsQ_B n hc tc a b) := by
  have HP := emUpdate_some_HP_snd hy
  rw [emUpdate] at hy
  dsimp only at hy
  rw [colSum_expectation_B HP] at hy
  dsimp only at hy
  rw [vAdd_some_some, vDiv_some_some] at hy
  by_cases hd : expHeadsQ_B n hc tc a b + expTailsQ_B n hc tc a b = 0
  · rw [if_pos hd] at hy
    exact absurd hy (by simp)
  · rw [if_neg hd] at hy
    exact ⟨hd, (Option.some.inj hy).symm⟩

theorem expHeadsQ_A_nonneg {n : ℕ} {hc tc : List ℕ} {a b : ℚ}
    (ha0 : 0 ≤ a) (ha1 : a ≤ 1) (hb0 : 0 ≤ b) (hb1 : b ≤ 1)
    (HP : ∀ e ∈ hc.zip tc, likeQ e.1 n a + likeQ e.1 n b ≠ 0) :
    0 ≤ expHeadsQ_A n hc tc a b := by
  apply List.sum_nonneg
  intro x hx
  obtain ⟨e, he, rfl⟩ := List.mem_map.mp hx
  exact mul_nonneg (wQA_mem ha0 ha1 hb0 hb1 (HP e he)).1 (Nat.cast_nonneg _)

theorem expTailsQ_A_nonneg {n : ℕ} {hc tc : List ℕ} {a b : ℚ}
    (ha0 : 0 ≤ a) (ha1 : a ≤ 1) (hb0 : 0 ≤ b) (hb1 : b ≤ 1)
    (HP : ∀ e ∈ hc.zip tc, likeQ e.1 n a + likeQ e.1 n b ≠ 0) :
    0 ≤ expTailsQ_A n hc tc a b := by
  apply List.sum_nonneg
  intro x hx
  obtain ⟨e, he, rfl⟩ := List.mem_map.mp hx
  exact mul_nonneg (wQA_mem ha0 ha1 hb0 hb1 (HP e he)).1 (Nat.cast_nonneg _)

theorem expHeadsQ_B_nonneg {n : ℕ} {hc tc : List ℕ} {a b : ℚ}
    (ha0 : 0 ≤ a) (ha1 : a ≤ 1) (hb0 : 0 ≤ b) (hb1 : b ≤ 1)
    (HP : ∀ e ∈ hc.zip tc, likeQ e.1 n a + likeQ e.1 n b ≠ 0) :
    0 ≤ expHeadsQ_B n hc tc a b := by
  apply List.sum_nonneg
  intro x hx
  obtain ⟨e, he, rfl⟩ := List.mem_map.mp hx
  exact mul_nonneg (wQB_mem ha0 ha1 hb0 hb1 (HP e he)).1 (Nat.cast_nonneg _)

theorem expTailsQ_B_nonneg {n : ℕ} {hc tc : List ℕ} {a b : ℚ}
    (ha0 : 0 ≤ a) (ha1 : a ≤ 1) (hb0 : 0 ≤ b) (hb1 : b ≤ 1)
    (HP : ∀ e ∈ hc.zip tc, likeQ e.1 n a + likeQ e.1 n b ≠ 0) :
    0 ≤ expTailsQ_B n hc tc a b := by
  apply List.sum_nonneg
  intro x hx
  obtain ⟨e, he, rfl⟩ := List.mem_map.mp hx
  exact mul_nonneg (wQB_mem ha0 ha1 hb0 hb1 (HP e he)).1 (Nat.cast_nonneg _)

theorem emUpdate_bounds {n : ℕ} {hc tc : List ℕ} {a b : ℚ}
    (ha0 : 0 ≤ a) (ha1 : a ≤ 1) (hb0 : 0 ≤ b) (hb1 : b ≤ 1) :
    (∀ x, (emUpdate n hc tc (Option.some a) (Option.some b)).1 = Option.some x →
      0 ≤ x ∧ x ≤ 1) ∧
    (∀ y, (emUpdate n hc tc (Option.some a) (Option.some b)).2 = Option.some y →
      0 ≤ y ∧ y ≤ 1) := by
  constructor
  · intro x hx
    have HP := emUpdate_some_HP hx
    obtain ⟨hd, hxeq⟩ := emUpdate_some_fst hx
    have hH := expHeadsQ_A_nonneg ha0 ha1 hb0 hb1 HP
    have hT := expTailsQ_A_nonneg ha0 ha1 hb0 hb1 HP
    have hpos : 0 < expHeadsQ_A n hc tc a b + expTailsQ_A n hc tc a b :=
      lt_of_le_of_ne (by linarith) (Ne.symm hd)
    subst hxeq
    exact ⟨div_nonneg hH hpos.le, (div_le_one hpos).mpr (by linarith)⟩
  · intro y hy
    have HP := emUpdate_some_HP_snd hy
    obtain ⟨hd, hyeq⟩ := emUpdate_some_snd hy
    have hH := expHeadsQ_B_nonneg ha0 ha1 hb0 hb1 HP
    have hT := expTailsQ_B_nonneg ha0 ha1 hb0 hb1 HP
    have hpos : 0 < expHeadsQ_B n hc tc a b + expTailsQ_B n hc tc a b :=
      lt_of_le_of_ne (by linarith) (Ne.symm hd)
    subst hyeq
    exact ⟨div_nonneg hH hpos.le, (div_le_one hpos).mpr (by linarith)⟩

/-- C9: for every dataset and every EM iteration starting from a
ParameterVector with both components in [0,1], whenever the M-step
produces (non-nan) updated parameters, both are again in [0,1] — the
parameters are probabilities at every (non-degenerate) point of the
trace. -/
theorem em_mstep_preserves_unit_interval (n : ℕ) (hc tc : List ℕ) (a b : ℚ)
    (ha0 : 0 ≤ a) (ha1 : a ≤ 1) (hb0 : 0 ≤ b) (hb1 : b ≤ 1) :
    (∀ x, (emUpdate n hc tc (Option.some a) (Option.some b)).1 = Option.some x →
      0 ≤ x ∧ x ≤ 1) ∧
    (∀ y, (emUpdate n hc tc (Option.some a) (Option.some b)).2 = Option.some y →
      0 ≤ y ∧ y ≤ 1) :=
  emUpdate_bounds ha0 ha1 hb0 hb1

/-- Witness for C9 at `n = 2`, dataset `[(2,0)]`, `θ = (1/2, 1/2)`. -/
theorem em_mstep_preserves_unit_interval_witness :
    ((0:ℚ) ≤ 1/2 ∧ (1/2:ℚ) ≤ 1) ∧
    (emUpdate 2 [2] [0] (Option.some (1/2)) (Option.some (1/2))).1 = Option.some 1 ∧
    ((0:ℚ) ≤ 1 ∧ (1:ℚ) ≤ 1) := by
  have h1 : emUpdate 2 [2] [0] (Option.some (1/2)) (Option.some (1/2)) =
      (Option.some 1, Option.some 1) := by
    simp only [emUpdate, expectation_A, expectation_B, colSum, List.zip_cons_cons,
      List.zip_nil_right, List.map_cons, List.map_nil, List.foldl_cons, List.foldl_nil]
    norm_num [weightA, weightB, compute_likelihood, vAdd, vMul, vDiv, vPow, vSub]
  have hx : (emUpdate 2 [2] [0] (Option.some (1/2)) (Option.some (1/2))).1 =
      Option.some 1 := by rw [h1]
  exact ⟨⟨by norm_num, by norm_num⟩, hx,
    (em_mstep_preserves_unit_interval 2 [2] [0] (1/2) (1/2)
      (by norm_num) (by norm_num) (by norm_num) (by norm_num)).1 1 hx⟩

/-! ### The multi-restart ranking (C8) -/

theorem accLe_trans (tA tB : ℚ) : ∀ r s t : RestartRow,
    accLe tA tB r s = true → accLe tA tB s t = true → accLe tA tB r t = true := by
  intro r s t h1 h2
  unfold accLe at h1 h2 ⊢
  cases hr : accScore tA tB r <;> cases hs : accScore tA tB s <;>
    cases ht : accScore tA tB t <;> simp_all <;> try linarith

theorem accLe_total (tA tB : ℚ) : ∀ r s : RestartRow,
    (accLe tA tB r s || accLe tA tB s r) = true := by
  intro r s
  unfold accLe
  cases hr : accScore tA tB r <;> cases hs : accScore tA tB s <;> simp
  exact le_total _ _

theorem restartRows_length (n : ℕ) (hc tc : List ℕ) (eps : ℚ) :
    ∀ (inits : List (ℚ × ℚ)) (rows : List RestartRow),
      restartRows n hc tc eps inits = Except.ok rows → rows.length = inits.length := by
  intro inits
  induction inits with
  | nil =>
    intro rows h
    rw [restartRows] at h
    obtain rfl := (Except.ok.inj h).symm
    rfl
  | cons p rest ih =>
    intro rows h
    rw [restartRows] at h
    cases hr : runEM n hc tc eps (Option.some p.1) (Option.some p.2) with
    | error e => rw [hr] at h; exact absurd h (by simp)
    | ok r =>
      cases hrest : restartRows n hc tc eps rest with
      | error e => rw [hr, hrest] at h; exact absurd h (by simp)
      | ok rows' =>
        rw [hr, hrest] at h
        obtain rfl := (Except.ok.inj h).symm
        simp [ih rows' hrest]

/-- C8: whenever the R restarts all complete, RunMultiRestart returns
exactly those R RestartResults (a permutation of the per-restart table,
one row per drawn initial guess) as a sequence sorted in ascending order
of the accuracy score `|θ_A_out − θ_A_true| + |θ_B_out − θ_B_true|`
(nan scores ordered last, as pandas `sort_values` places them). -/
theorem runMultiRestart_sorted_by_acc (n : ℕ) (hc tc : List ℕ) (eps : ℚ)
    (inits : List (ℚ × ℚ)) (tA tB : ℚ) (rows : List RestartRow)
    (hrows : restartRows n hc tc eps inits = Except.ok rows) :
    ∃ out : List RestartRow,
      runMultiRestart n hc tc eps inits tA tB = Except.ok out ∧
      out.Perm rows ∧
      List.Pairwise (fun r s => accLe tA tB r s = true) out ∧
      out.length = inits.length := by
  refine ⟨rows.mergeSort (accLe tA tB), ?_, ?_, ?_, ?_⟩
  · rw [runMultiRestart, hrows]
    rfl
  · exact List.mergeSort_perm rows _
  · simpa using List.sorted_mergeSort
      (fun a b c h1 h2 => accLe_trans tA tB a b c h1 h2)
      (fun a b => accLe_total tA tB a b) rows
  · rw [List.length_mergeSort]
    exact restartRows_length n hc tc eps inits rows hrows

/-- Witness for C8: two completed restarts on a one-experiment dataset. -/
theorem runMultiRestart_sorted_by_acc_witness :
    restartRows 1 [1] [0] (1/1000) [(1/2, 1/4), (1/3, 1/5)] =
      Except.ok [⟨1/2, 1/4, Option.some 1, Option.some 1⟩,
                 ⟨1/3, 1/5, Option.some 1, Option.some 1⟩] ∧
    (∃ out : List RestartRow,
      runMultiRestart 1 [1] [0] (1/1000) [(1/2, 1/4), (1/3, 1/5)] (4/5) (2/5) =
        Except.ok out ∧
      out.Perm [⟨1/2, 1/4, Option.some 1, Option.some 1⟩,
                ⟨1/3, 1/5, Option.some 1, Option.some 1⟩] ∧
      List.Pairwise (fun r s => accLe (4/5) (2/5) r s = true) out ∧
      out.length = [((1:ℚ)/2, (1:ℚ)/4), ((1:ℚ)/3, (1:ℚ)/5)].length) := by
  have h2 : emUpdate 1 [1] [0] (Option.some 1) (Option.some 1) =
      (Option.some 1, Option.some 1) := by
    simp only [emUpdate, expectation_A, expectation_B, colSum, List.zip_cons_cons,
      List.zip_nil_right, List.map_cons, List.map_nil, List.foldl_cons, List.foldl_nil]
    norm_num [weightA, weightB, compute_likelihood, vAdd, vMul, vDiv, vPow, vSub]
  have h1 : emUpdate 1 [1] [0] (Option.some (1/2)) (Option.some (1/4)) =
      (Option.some 1, Option.some 1) := by
    simp only [emUpdate, expectation_A, expectation_B, colSum, List.zip_cons_cons,
      List.zip_nil_right, List.map_cons, List.map_nil, List.foldl_cons, List.foldl_nil]
    norm_num [weightA, weightB, compute_likelihood, vAdd, vMul, vDiv, vPow, vSub]
  have h3 : emUpdate 1 [1] [0] (Option.some (1/3)) (Option.some (1/5)) =
      (Option.some 1, Option.some 1) := by
    simp only [emUpdate, expectation_A, expectation_B, colSum, List.zip_cons_cons,
      List.zip_nil_right, List.map_cons, List.map_nil, List.foldl_cons, List.foldl_nil]
    norm_num [weightA, weightB, compute_likelihood, vAdd, vMul, vDiv, vPow, vSub]
  have hr1 : runEM 1 [1] [0] (1/1000) (Option.some (1/2)) (Option.some (1/4)) =
      Except.ok ⟨[1], [0], Option.some 1, Option.some 1,
        [(Option.some (1/2), Option.some (1/4)), (Option.some 1, Option.some 1),
         (Option.some 1, Option.some 1)]⟩ := by
    rw [runEM_eq, h1]
    dsimp only
    rw [show (98:ℕ) = 97 + 1 from rfl]
    rw [emLoop_succ (by norm_num [vMax, vAbs, vSub, vGt, abs_of_nonneg])]
    rw [h2]
    dsimp only
    rw [emLoop_exit (by norm_num [vMax, vAbs, vSub, vGt])]
    rfl
  have hr2 : runEM 1 [1] [0] (1/1000) (Option.some (1/3)) (Option.some (1/5)) =
      Except.ok ⟨[1], [0], Option.some 1, Option.some 1,
        [(Option.some (1/3), Option.some (1/5)), (Option.some 1, Option.some 1),
         (Option.some 1, Option.some 1)]⟩ := by
    rw [runEM_eq, h3]
    dsimp only
    rw [show (98:ℕ) = 97 + 1 from rfl]
    rw [emLoop_succ (by norm_num [vMax, vAbs, vSub, vGt, abs_of_nonneg])]
    rw [h2]
    dsimp only
    rw [emLoop_exit (by norm_num [vMax, vAbs, vSub, vGt])]
    rfl
  have hrows : restartRows 1 [1] [0] (1/1000) [(1/2, 1/4), (1/3, 1/5)] =
      Except.ok [⟨1/2, 1/4, Option.some 1, Option.some 1⟩,
                 ⟨1/3, 1/5, Option.some 1, Option.some 1⟩] := by
    simp only [restartRows, hr1, hr2]
  exact ⟨hrows,
    runMultiRestart_sorted_by_acc 1 [1] [0] (1/1000) [(1/2, 1/4), (1/3, 1/5)] (4/5) (2/5)
      _ hrows⟩

/-! ### The trace of a completed run is the orbit of emUpdate (towards C4) -/

theorem emLoop_ok_chain (n : ℕ) (eps : ℚ) (hc tc : List ℕ) :
    ∀ (fuel : ℕ) (pA pB : Val) (tr : List (Val × Val)) (imp : Val) (r : EMResult),
      emLoop n eps fuel hc tc pA pB tr imp = Except.ok r →
      List.Chain' (fun q q' => q' = emUpdate n hc tc q.1 q.2) tr →
      tr.getLast? = Option.some (pA, pB) →
      List.Chain' (fun q q' => q' = emUpdate n hc tc q.1 q.2) r.trace ∧
      r.trace.head? = tr.head? := by
  intro fuel
  induction fuel with
  | zero =>
    intro pA pB tr imp r h hch hlast
    by_cases hg : vGt imp (Option.some eps) = true
    · rw [emLoop_zero_fuel hg] at h
      exact absurd h (by simp)
    · rw [emLoop_exit (by simpa using hg)] at h
      obtain rfl := (Except.ok.inj h).symm
      exact ⟨hch, rfl⟩
  | succ fuel ih =>
    intro pA pB tr imp r h hch hlast
    by_cases hg : vGt imp (Option.some eps) = true
    · rw [emLoop_succ hg] at h
      have htrne : tr ≠ [] := by
        intro hnil
        rw [hnil] at hlast
        exact absurd hlast (by simp)
      have hch' : List.Chain' (fun q q' => q' = emUpdate n hc tc q.1 q.2)
          (tr ++ [emUpdate n hc tc pA pB]) := by
        refine List.Chain'.append hch (by simp) ?_
        intro x hx y hy
        rw [hlast] at hx
        simp only [Option.mem_def, Option.some.injEq] at hx
        simp only [List.head?_cons, Option.mem_def, Option.some.injEq] at hy
        rw [← hx, ← hy]
      have hlast' : (tr ++ [emUpdate n hc tc pA pB]).getLast? =
          Option.some ((emUpdate n hc tc pA pB).1, (emUpdate n hc tc pA pB).2) := by
        rw [List.getLast?_concat]
      obtain ⟨hchain, hhead⟩ := ih _ _ _ _ r h hch' hlast'
      refine ⟨hchain, ?_⟩
      rw [hhead, List.head?_append]
      cases tr with
      | nil => exact absurd rfl htrne
      | cons q tl => simp
    · rw [emLoop_exit (by simpa using hg)] at h
      obtain rfl := (Except.ok.inj h).symm
      exact ⟨hch, rfl⟩

theorem runEM_ok_chain (n : ℕ) (hc tc : List ℕ) (eps : ℚ) (pA0 pB0 : Val) (r : EMResult)
    (h : runEM n hc tc eps pA0 pB0 = Except.ok r) :
    List.Chain' (fun q q' => q' = emUpdate n hc tc q.1 q.2) r.trace ∧
    r.trace.head? = Option.some (pA0, pB0) := by
  rw [runEM_eq] at h
  have hch : List.Chain' (fun q q' => q' = emUpdate n hc tc q.1 q.2)
      [(pA0, pB0), emUpdate n hc tc pA0 pB0] := by
    simp
  have hlast : ([(pA0, pB0), emUpdate n hc tc pA0 pB0] : List (Val × Val)).getLast? =
      Option.some ((emUpdate n hc tc pA0 pB0).1, (emUpdate n hc tc pA0 pB0).2) := by
    simp
  obtain ⟨hchain, hhead⟩ := emLoop_ok_chain n eps hc tc 98 _ _ _ _ r h hch hlast
  exact ⟨hchain, by rw [hhead]; simp⟩

/-! ### The two analytic inequalities behind EM monotonicity -/

theorem jensen_two (lA lB lA' lB' : ℝ)
    (hA : 0 ≤ lA) (hB : 0 ≤ lB) (hP : 0 < lA + lB)
    (hA' : 0 ≤ lA') (hB' : 0 ≤ lB') (hP' : 0 < lA' + lB')
    (hSA : 0 < lA → 0 < lA') (hSB : 0 < lB → 0 < lB') :
    lA / (lA + lB) * (Real.log lA' - Real.log lA) +
      lB / (lA + lB) * (Real.log lB' - Real.log lB) ≤
    Real.log (lA' + lB') - Real.log (lA + lB) := by
  rcases eq_or_lt_of_le hA with hA0 | hApos
  · have hA0' : lA = 0 := hA0.symm
    subst hA0'
    have hBpos : 0 < lB := by simpa using hP
    have hB'pos : 0 < lB' := hSB hBpos
    simp only [zero_add, zero_div, zero_mul, div_self (ne_of_gt hBpos), one_mul]
    have hmono := Real.log_le_log hB'pos (by linarith : lB' ≤ lA' + lB')
    linarith
  · rcases eq_or_lt_of_le hB with hB0 | hBpos
    · have hB0' : lB = 0 := hB0.symm
      subst hB0'
      have hA'pos : 0 < lA' := hSA hApos
      simp only [add_zero, zero_div, zero_mul, div_self (ne_of_gt hApos), one_mul]
      have hmono := Real.log_le_log hA'pos (by linarith : lA' ≤ lA' + lB')
      linarith
    · have hA'pos : 0 < lA' := hSA hApos
      have hB'pos : 0 < lB' := hSB hBpos
      have k1 : Real.log (lA' * (lA + lB) / (lA * (lA' + lB'))) ≤
          lA' * (lA + lB) / (lA * (lA' + lB')) - 1 :=
        Real.log_le_sub_one_of_pos (by positivity)
      have k2 : Real.log (lB' * (lA + lB) / (lB * (lA' + lB'))) ≤
          lB' * (lA + lB) / (lB * (lA' + lB')) - 1 :=
        Real.log_le_sub_one_of_pos (by positivity)
      have e1 : Real.log (lA' * (lA + lB) / (lA * (lA' + lB'))) =
          Real.log lA' + Real.log (lA + lB) - Real.log lA - Real.log (lA' + lB') := by
        rw [Real.log_div (by positivity) (by positivity),
          Real.log_mul (ne_of_gt hA'pos) (ne_of_gt hP),
          Real.log_mul (ne_of_gt hApos) (ne_of_gt hP')]
        ring
      have e2 : Real.log (lB' * (lA + lB) / (lB * (lA' + lB'))) =
          Real.log lB' + Real.log (lA + lB) - Real.log lB - Real.log (lA' + lB') := by
        rw [Real.log_div (by positivity) (by positivity),
          Real.log_mul (ne_of_gt hB'pos) (ne_of_gt hP),
          Real.log_mul (ne_of_gt hBpos) (ne_of_gt hP')]
        ring
      have hw1 : (0:ℝ) ≤ lA / (lA + lB) := by positivity
      have hw2 : (0:ℝ) ≤ lB / (lA + lB) := by positivity
      have m1 := mul_le_mul_of_nonneg_left k1 hw1
      have m2 := mul_le_mul_of_nonneg_left k2 hw2
      rw [e1] at m1
      rw [e2] at m2
      have heq1 : lA / (lA + lB) * (lA' * (lA + lB) / (lA * (lA' + lB')) - 1) =
          lA' / (lA' + lB') - lA / (lA + lB) := by
        field_simp
        ring
      have heq2 : lB / (lA + lB) * (lB' * (lA + lB) / (lB * (lA' + lB')) - 1) =
          lB' / (lA' + lB') - lB / (lA + lB) := by
        field_simp
        ring
      rw [heq1] at m1
      rw [heq2] at m2
      have x1 : lA / (lA + lB) *
          (Real.log lA' + Real.log (lA + lB) - Real.log lA - Real.log (lA' + lB')) =
          lA / (lA + lB) * Real.log lA' - lA / (lA + lB) * Real.log lA +
          lA / (lA + lB) * Real.log (lA + lB) - lA / (lA + lB) * Real.log (lA' + lB') := by
        ring
      have x2 : lB / (lA + lB) *
          (Real.log lB' + Real.log (lA + lB) - Real.log lB - Real.log (lA' + lB')) =
          lB / (lA + lB) * Real.log lB' - lB / (lA + lB) * Real.log lB +
          lB / (lA + lB) * Real.log (lA + lB) - lB / (lA + lB) * Real.log (lA' + lB') := by
        ring
      rw [x1] at m1
      rw [x2] at m2
      have hsum1 : lA / (lA + lB) + lB / (lA + lB) = 1 := by
        field_simp
      have hsum2 : lA' / (lA' + lB') + lB' / (lA' + lB') = 1 := by
        field_simp
      have t1 : lA / (lA + lB) * Real.log (lA + lB) + lB / (lA + lB) * Real.log (lA + lB) =
          Real.log (lA + lB) := by
        rw [← add_mul, hsum1, one_mul]
      have t2 : lA / (lA + lB) * Real.log (lA' + lB') + lB / (lA + lB) * Real.log (lA' + lB') =
          Real.log (lA' + lB') := by
        rw [← add_mul, hsum1, one_mul]
      have goal_eq : lA / (lA + lB) * (Real.log lA' - Real.log lA) +
          lB / (lA + lB) * (Real.log lB' - Real.log lB) =
          lA / (lA + lB) * Real.log lA' - lA / (lA + lB) * Real.log lA +
          (lB / (lA + lB) * Real.log lB' - lB / (lA + lB) * Real.log lB) := by
        ring
      rw [goal_eq]
      linarith [m1, m2, t1, t2, hsum1, hsum2]

theorem mstep_opt (EH ET t : ℝ) (hEH : 0 ≤ EH) (hET : 0 ≤ ET) (hs : 0 < EH + ET)
    (ht0 : 0 ≤ t) (ht1 : t ≤ 1) (hz : t = 0 → EH = 0) (ho : t = 1 → ET = 0) :
    EH * Real.log t + ET * Real.log (1 - t) ≤
      EH * Real.log (EH / (EH + ET)) + ET * Real.log (ET / (EH + ET)) := by
  rcases eq_or_lt_of_le hEH with hEH0 | hEHpos
  · have h0 : EH = 0 := hEH0.symm
    subst h0
    have hETpos : 0 < ET := by simpa using hs
    simp only [zero_mul, zero_add]
    rw [div_self (ne_of_gt hETpos), Real.log_one, mul_zero]
    have hlog : Real.log (1 - t) ≤ 0 := Real.log_nonpos (by linarith) (by linarith)
    have := mul_le_mul_of_nonneg_left hlog (le_of_lt hETpos)
    linarith
  · rcases eq_or_lt_of_le hET with hET0 | hETpos
    · have h0 : ET = 0 := hET0.symm
      subst h0
      simp only [zero_mul, add_zero]
      rw [div_self (ne_of_gt hEHpos), Real.log_one, mul_zero]
      have htpos : Real.log t ≤ 0 := Real.log_nonpos ht0 ht1
      have := mul_le_mul_of_nonneg_left htpos (le_of_lt hEHpos)
      linarith
    · have htpos : 0 < t :=
        lt_of_le_of_ne ht0 (fun h => absurd (hz h.symm) (ne_of_gt hEHpos))
    -- t < 1 because ET > 0
      have ht1' : t < 1 :=
        lt_of_le_of_ne ht1 (fun h => absurd (ho h) (ne_of_gt hETpos))
      have h1t : 0 < 1 - t := by linarith
      have k1 : Real.log (t * (EH + ET) / EH) ≤ t * (EH + ET) / EH - 1 :=
        Real.log_le_sub_one_of_pos (by positivity)
      have k2 : Real.log ((1 - t) * (EH + ET) / ET) ≤ (1 - t) * (EH + ET) / ET - 1 :=
        Real.log_le_sub_one_of_pos (by positivity)
      have e1 : Real.log (t * (EH + ET) / EH) =
          Real.log t + Real.log (EH + ET) - Real.log EH := by
        rw [Real.log_div (by positivity) (ne_of_gt hEHpos),
          Real.log_mul (ne_of_gt htpos) (ne_of_gt hs)]
      have e2 : Real.log ((1 - t) * (EH + ET) / ET) =
          Real.log (1 - t) + Real.log (EH + ET) - Real.log ET := by
        rw [Real.log_div (by positivity) (ne_of_gt hETpos),
          Real.log_mul (ne_of_gt h1t) (ne_of_gt hs)]
      have m1 := mul_le_mul_of_nonneg_left k1 (le_of_lt hEHpos)
      have m2 := mul_le_mul_of_nonneg_left k2 (le_of_lt hETpos)
      rw [e1] at m1
      rw [e2] at m2
      have heq1 : EH * (t * (EH + ET) / EH - 1) = t * (EH + ET) - EH := by
        field_simp
      have heq2 : ET * ((1 - t) * (EH + ET) / ET - 1) = (1 - t) * (EH + ET) - ET := by
        field_simp
      rw [heq1] at m1
      rw [heq2] at m2
      have x1 : EH * (Real.log t + Real.log (EH + ET) - Real.log EH) =
          EH * Real.log t + EH * Real.log (EH + ET) - EH * Real.log EH := by
        ring
      have x2 : ET * (Real.log (1 - t) + Real.log (EH + ET) - Real.log ET) =
          ET * Real.log (1 - t) + ET * Real.log (EH + ET) - ET * Real.log ET := by
        ring
      rw [x1] at m1
      rw [x2] at m2
      have r1 : Real.log (EH / (EH + ET)) = Real.log EH - Real.log (EH + ET) :=
        Real.log_div (ne_of_gt hEHpos) (ne_of_gt hs)
      have r2 : Real.log (ET / (EH + ET)) = Real.log ET - Real.log (EH + ET) :=
        Real.log_div (ne_of_gt hETpos) (ne_of_gt hs)
      rw [r1, r2]
      have rhs_eq : EH * (Real.log EH - Real.log (EH + ET)) +
          ET * (Real.log ET - Real.log (EH + ET)) =
          EH * Real.log EH - EH * Real.log (EH + ET) +
          ET * Real.log ET - ET * Real.log (EH + ET) := by
        ring
      rw [rhs_eq]
      have tsum : t * (EH + ET) + (1 - t) * (EH + ET) = EH + ET := by
        ring
      linarith [m1, m2, tsum]

/-! ### Zero analysis of the likelihood and the expected statistics -/

theorem likeQ_eq_zero_iff {h n : ℕ} {p : ℚ} (hhn : h ≤ n) :
    likeQ h n p = 0 ↔ (p = 0 ∧ 0 < h) ∨ (p = 1 ∧ h < n) := by
  unfold likeQ
  have hC : ((n.choose h : ℚ)) ≠ 0 := by
    exact_mod_cast (Nat.choose_pos hhn).ne'
  constructor
  · intro hz
    rcases mul_eq_zero.mp hz with hz1 | hz2
    · rcases mul_eq_zero.mp hz1 with hz3 | hz4
      · exact absurd hz3 hC
      · cases h with
        | zero => rw [pow_zero] at hz4; exact absurd hz4 one_ne_zero
        | succ m =>
          left
          refine ⟨?_, Nat.succ_pos m⟩
          exact pow_eq_zero_iff (Nat.succ_ne_zero m) |>.mp hz4
    · cases hnh : n - h with
      | zero => rw [hnh, pow_zero] at hz2; exact absurd hz2 one_ne_zero
      | succ m =>
        right
        rw [hnh] at hz2
        have h1p : 1 - p = 0 := pow_eq_zero_iff (Nat.succ_ne_zero m) |>.mp hz2
        exact ⟨by linarith, by omega⟩
  · intro hcase
    rcases hcase with ⟨hp, hh⟩ | ⟨hp, hh⟩
    · subst hp
      rw [zero_pow (by omega : h ≠ 0)]
      ring
    · subst hp
      rw [show (1:ℚ) - 1 = 0 from by ring, zero_pow (by omega : n - h ≠ 0)]
      ring

theorem list_sum_zero_of_nonneg {l : List ℚ} (h0 : ∀ x ∈ l, 0 ≤ x) (hs : l.sum = 0) :
    ∀ x ∈ l, x = 0 := by
  induction l with
  | nil => simp
  | cons a t ih =>
    have hta : 0 ≤ a := h0 a (by simp)
    have htt : 0 ≤ t.sum := List.sum_nonneg (fun x hx => h0 x (by simp [hx]))
    rw [List.sum_cons] at hs
    intro x hx
    rcases List.mem_cons.mp hx with rfl | hxt
    · linarith
    · exact ih (fun y hy => h0 y (by simp [hy])) (by linarith) x hxt

theorem expHeadsQ_A_terms_zero {n : ℕ} {hc tc : List ℕ} {a b : ℚ}
    (ha0 : 0 ≤ a) (ha1 : a ≤ 1) (hb0 : 0 ≤ b) (hb1 : b ≤ 1)
    (HP : ∀ e ∈ hc.zip tc, likeQ e.1 n a + likeQ e.1 n b ≠ 0)
    (hz : expHeadsQ_A n hc tc a b = 0) :
    ∀ e ∈ hc.zip tc, wQA n a b e.1 * (e.1 : ℚ) = 0 := by
  intro e he
  refine list_sum_zero_of_nonneg ?_ hz _ (List.mem_map.mpr ⟨e, he, rfl⟩)
  intro x hx
  obtain ⟨f, hf, rfl⟩ := List.mem_map.mp hx
  exact mul_nonneg (wQA_mem ha0 ha1 hb0 hb1 (HP f hf)).1 (Nat.cast_nonneg _)

theorem expTailsQ_A_terms_zero {n : ℕ} {hc tc : List ℕ} {a b : ℚ}
    (ha0 : 0 ≤ a) (ha1 : a ≤ 1) (hb0 : 0 ≤ b) (hb1 : b ≤ 1)
    (HP : ∀ e ∈ hc.zip tc, likeQ e.1 n a + likeQ e.1 n b ≠ 0)
    (hz : expTailsQ_A n hc tc a b = 0) :
    ∀ e ∈ hc.zip tc, wQA n a b e.1 * (e.2 : ℚ) = 0 := by
  intro e he
  refine list_sum_zero_of_nonneg ?_ hz _ (List.mem_map.mpr ⟨e, he, rfl⟩)
  intro x hx
  obtain ⟨f, hf, rfl⟩ := List.mem_map.mp hx
  exact mul_nonneg (wQA_mem ha0 ha1 hb0 hb1 (HP f hf)).1 (Nat.cast_nonneg _)

theorem expHeadsQ_B_terms_zero {n : ℕ} {hc tc : List ℕ} {a b : ℚ}
    (ha0 : 0 ≤ a) (ha1 : a ≤ 1) (hb0 : 0 ≤ b) (hb1 : b ≤ 1)
    (HP : ∀ e ∈ hc.zip tc, likeQ e.1 n a + likeQ e.1 n b ≠ 0)
    (hz : expHeadsQ_B n hc tc a b = 0) :
    ∀ e ∈ hc.zip tc, wQB n a b e.1 * (e.1 : ℚ) = 0 := by
  intro e he
  refine list_sum_zero_of_nonneg ?_ hz _ (List.mem_map.mpr ⟨e, he, rfl⟩)
  intro x hx
  obtain ⟨f, hf, rfl⟩ := List.mem_map.mp hx
  exact mul_nonneg (wQB_mem ha0 ha1 hb0 hb1 (HP f hf)).1 (Nat.cast_nonneg _)

theorem expTailsQ_B_terms_zero {n : ℕ} {hc tc : List ℕ} {a b : ℚ}
    (ha0 : 0 ≤ a) (ha1 : a ≤ 1) (hb0 : 0 ≤ b) (hb1 : b ≤ 1)
    (HP : ∀ e ∈ hc.zip tc, likeQ e.1 n a + likeQ e.1 n b ≠ 0)
    (hz : expTailsQ_B n hc tc a b = 0) :
    ∀ e ∈ hc.zip tc, wQB n a b e.1 * (e.2 : ℚ) = 0 := by
  intro e he
  refine list_sum_zero_of_nonneg ?_ hz _ (List.mem_map.mpr ⟨e, he, rfl⟩)
  intro x hx
  obtain ⟨f, hf, rfl⟩ := List.mem_map.mp hx
  exact mul_nonneg (wQB_mem ha0 ha1 hb0 hb1 (HP f hf)).1 (Nat.cast_nonneg _)

theorem expHeadsQ_A_zero_of_zero {n : ℕ} {hc tc : List ℕ} {a b : ℚ} (ha : a = 0) :
    expHeadsQ_A n hc tc a b = 0 := by
  subst ha
  refine List.sum_eq_zero ?_
  intro x hx
  obtain ⟨e, he, rfl⟩ := List.mem_map.mp hx
  rcases Nat.eq_zero_or_pos e.1 with h0 | hpos
  · rw [h0]
    simp
  · unfold wQA
    rw [likeQ_zero_left hpos, zero_div, zero_mul]

theorem expTailsQ_A_zero_of_one {n : ℕ} {hc tc : List ℕ} {a b : ℚ}
    (hval : ∀ e ∈ hc.zip tc, e.1 + e.2 = n) (ha : a = 1) :
    expTailsQ_A n hc tc a b = 0 := by
  subst ha
  refine List.sum_eq_zero ?_
  intro x hx
  obtain ⟨e, he, rfl⟩ := List.mem_map.mp hx
  rcases Nat.eq_zero_or_pos e.2 with h0 | hpos
  · rw [h0]
    simp
  · have hlt : e.1 < n := by have := hval e he; omega
    unfold wQA
    rw [likeQ_one_of_lt hlt, zero_div, zero_mul]

theorem expHeadsQ_B_zero_of_zero {n : ℕ} {hc tc : List ℕ} {a b : ℚ} (hb : b = 0) :
    expHeadsQ_B n hc tc a b = 0 := by
  subst hb
  refine List.sum_eq_zero ?_
  intro x hx
  obtain ⟨e, he, rfl⟩ := List.mem_map.mp hx
  rcases Nat.eq_zero_or_pos e.1 with h0 | hpos
  · rw [h0]
    simp
  · unfold wQB
    rw [likeQ_zero_left hpos, zero_div, zero_mul]

theorem expTailsQ_B_zero_of_one {n : ℕ} {hc tc : List ℕ} {a b : ℚ}
    (hval : ∀ e ∈ hc.zip tc, e.1 + e.2 = n) (hb : b = 1) :
    expTailsQ_B n hc tc a b = 0 := by
  subst hb
  refine List.sum_eq_zero ?_
  intro x hx
  obtain ⟨e, he, rfl⟩ := List.mem_map.mp hx
  rcases Nat.eq_zero_or_pos e.2 with h0 | hpos
  · rw [h0]
    simp
  · have hlt : e.1 < n := by have := hval e he; omega
    unfold wQB
    rw [likeQ_one_of_lt hlt, zero_div, zero_mul]

/-! ### A surviving likelihood stays nonzero after the M-step -/

theorem survival_A {n : ℕ} {hc tc : List ℕ} {a b a' : ℚ}
    (hval : ∀ e ∈ hc.zip tc, e.1 + e.2 = n)
    (ha0 : 0 ≤ a) (ha1 : a ≤ 1) (hb0 : 0 ≤ b) (hb1 : b ≤ 1)
    (HP : ∀ e ∈ hc.zip tc, likeQ e.1 n a + likeQ e.1 n b ≠ 0)
    (hdA : expHeadsQ_A n hc tc a b + expTailsQ_A n hc tc a b ≠ 0)
    (haeq : a' = expHeadsQ_A n hc tc a b /
      (expHeadsQ_A n hc tc a b + expTailsQ_A n hc tc a b)) :
    ∀ e ∈ hc.zip tc, likeQ e.1 n a ≠ 0 → likeQ e.1 n a' ≠ 0 := by
  intro e he hla hla'
  have hhn : e.1 ≤ n := by have := hval e he; omega
  have hw : wQA n a b e.1 = 0 → False := by
    intro h0
    unfold wQA at h0
    rcases div_eq_zero_iff.mp h0 with h | h
    · exact hla h
    · exact HP e he h
  rcases (likeQ_eq_zero_iff hhn).mp hla' with ⟨hz, hh⟩ | ⟨hz, hh⟩
  · have hEH : expHeadsQ_A n hc tc a b = 0 := by
      rw [hz] at haeq
      rcases div_eq_zero_iff.mp haeq.symm with h | h
      · exact h
      · exact absurd h hdA
    have hterm := expHeadsQ_A_terms_zero ha0 ha1 hb0 hb1 HP hEH e he
    rcases mul_eq_zero.mp hterm with h | h
    · exact hw h
    · exact absurd h (Nat.cast_ne_zero.mpr (by omega))
  · have hET : expTailsQ_A n hc tc a b = 0 := by
      rw [hz] at haeq
      have hEq : expHeadsQ_A n hc tc a b =
          expHeadsQ_A n hc tc a b + expTailsQ_A n hc tc a b :=
        (div_eq_one_iff_eq hdA).mp haeq.symm
      linarith
    have ht2 : 0 < e.2 := by have := hval e he; omega
    have hterm := expTailsQ_A_terms_zero ha0 ha1 hb0 hb1 HP hET e he
    rcases mul_eq_zero.mp hterm with h | h
    · exact hw h
    · exact absurd h (Nat.cast_ne_zero.mpr (by omega))

theorem survival_B {n : ℕ} {hc tc : List ℕ} {a b b' : ℚ}
    (hval : ∀ e ∈ hc.zip tc, e.1 + e.2 = n)
    (ha0 : 0 ≤ a) (ha1 : a ≤ 1) (hb0 : 0 ≤ b) (hb1 : b ≤ 1)
    (HP : ∀ e ∈ hc.zip tc, likeQ e.1 n a + likeQ e.1 n b ≠ 0)
    (hdB : expHeadsQ_B n hc tc a b + expTailsQ_B n hc tc a b ≠ 0)
    (hbeq : b' = expHeadsQ_B n hc tc a b /
      (expHeadsQ_B n hc tc a b + expTailsQ_B n hc tc a b)) :
    ∀ e ∈ hc.zip tc, likeQ e.1 n b ≠ 0 → likeQ e.1 n b' ≠ 0 := by
  intro e he hlb hlb'
  have hhn : e.1 ≤ n := by have := hval e he; omega
  have hw : wQB n a b e.1 = 0 → False := by
    intro h0
    unfold wQB at h0
    rcases div_eq_zero_iff.mp h0 with h | h
    · exact hlb h
    · exact HP e he h
  rcases (likeQ_eq_zero_iff hhn).mp hlb' with ⟨hz, hh⟩ | ⟨hz, hh⟩
  · have hEH : expHeadsQ_B n hc tc a b = 0 := by
      rw [hz] at hbeq
      rcases div_eq_zero_iff.mp hbeq.symm with h | h
      · exact h
      · exact absurd h hdB
    have hterm := expHeadsQ_B_terms_zero ha0 ha1 hb0 hb1 HP hEH e he
    rcases mul_eq_zero.mp hterm with h | h
    · exact hw h
    · exact absurd h (Nat.cast_ne_zero.mpr (by omega))
  · have hET : expTailsQ_B n hc tc a b = 0 := by
      rw [hz] at hbeq
      have hEq : expHeadsQ_B n hc tc a b =
          expHeadsQ_B n hc tc a b + expTailsQ_B n hc tc a b :=
        (div_eq_one_iff_eq hdB).mp hbeq.symm
      linarith
    have ht2 : 0 < e.2 := by have := hval e he; omega
    have hterm := expTailsQ_B_terms_zero ha0 ha1 hb0 hb1 HP hET e he
    rcases mul_eq_zero.mp hterm with h | h
    · exact hw h
    · exact absurd h (Nat.cast_ne_zero.mpr (by omega))

/-! ### Real-valued summation helpers -/

theorem list_sum_map_sub {α : Type} (l : List α) (f g : α → ℝ) :
    (l.map f).sum - (l.map g).sum = (l.map (fun x => f x - g x)).sum := by
  induction l with
  | nil => simp
  | cons x t ih =>
    simp only [List.map_cons, List.sum_cons]
    rw [← ih]
    ring

theorem list_sum_map_add {α : Type} (l : List α) (f g : α → ℝ) :
    (l.map (fun x => f x + g x)).sum = (l.map f).sum + (l.map g).sum := by
  induction l with
  | nil => simp
  | cons x t ih =>
    simp only [List.map_cons, List.sum_cons]
    rw [ih]
    ring

theorem cast_list_sum_map {α : Type} (l : List α) (g : α → ℚ) :
    (((l.map g).sum : ℚ) : ℝ) = (l.map (fun x => ((g x : ℚ) : ℝ))).sum := by
  induction l with
  | nil => simp
  | cons x t ih =>
    simp only [List.map_cons, List.sum_cons, Rat.cast_add, ih]

theorem log_likeQ_decomp {h n : ℕ} {p : ℚ} (hne : likeQ h n p ≠ 0) :
    Real.log ((likeQ h n p : ℚ) : ℝ) =
      Real.log ((n.choose h : ℕ) : ℝ) + (h : ℝ) * Real.log ((p : ℚ) : ℝ) +
      ((n - h : ℕ) : ℝ) * Real.log (1 - ((p : ℚ) : ℝ)) := by
  have hfac : ((n.choose h : ℚ)) ≠ 0 ∧ p ^ h ≠ 0 ∧ (1 - p) ^ (n - h) ≠ 0 := by
    unfold likeQ at hne
    refine ⟨?_, ?_, ?_⟩
    · intro h0
      exact hne (by rw [h0]; ring)
    · intro h0
      exact hne (by rw [h0]; ring)
    · intro h0
      exact hne (by rw [h0]; ring)
  obtain ⟨hC, hx, hy⟩ := hfac
  have hcast : ((likeQ h n p : ℚ) : ℝ) =
      ((n.choose h : ℕ) : ℝ) * ((p : ℚ) : ℝ) ^ h * (1 - ((p : ℚ) : ℝ)) ^ (n - h) := by
    unfold likeQ
    push_cast
    ring
  have hCr : ((n.choose h : ℕ) : ℝ) ≠ 0 := by
    exact_mod_cast hC
  have hxr : ((p : ℚ) : ℝ) ^ h ≠ 0 := by
    have : (((p ^ h : ℚ)) : ℝ) ≠ 0 := by exact_mod_cast hx
    simpa [Rat.cast_pow] using this
  have hyr : (1 - ((p : ℚ) : ℝ)) ^ (n - h) ≠ 0 := by
    have : ((((1 - p) ^ (n - h) : ℚ)) : ℝ) ≠ 0 := by exact_mod_cast hy
    simpa [Rat.cast_pow, Rat.cast_sub, Rat.cast_one] using this
  rw [hcast, Real.log_mul (mul_ne_zero hCr hxr) hyr, Real.log_mul hCr hxr,
    Real.log_pow, Real.log_pow]

theorem per_coin_term {n : ℕ} (h t : ℕ) (aQ a'Q : ℚ) (w : ℝ)
    (hvalht : h + t = n)
    (hwz : w = 0 ∨ (likeQ h n aQ ≠ 0 ∧ likeQ h n a'Q ≠ 0)) :
    w * (Real.log ((likeQ h n a'Q : ℚ) : ℝ) - Real.log ((likeQ h n aQ : ℚ) : ℝ)) =
      w * ((h : ℝ) * (Real.log ((a'Q : ℚ) : ℝ) - Real.log ((aQ : ℚ) : ℝ)) +
           (t : ℝ) * (Real.log (1 - ((a'Q : ℚ) : ℝ)) - Real.log (1 - ((aQ : ℚ) : ℝ)))) := by
  rcases hwz with hw | ⟨hla, hla'⟩
  · rw [hw, zero_mul, zero_mul]
  · rw [log_likeQ_decomp hla, log_likeQ_decomp hla']
    have hth : ((n - h : ℕ) : ℝ) = (t : ℝ) := by
      have : n - h = t := by omega
      rw [this]
    rw [hth]
    ring

theorem coin_sum_decomp {n : ℕ} {hc tc : List ℕ} (w : ℕ × ℕ → ℚ) (aQ a'Q : ℚ)
    (hval : ∀ e ∈ hc.zip tc, e.1 + e.2 = n)
    (hwz : ∀ e ∈ hc.zip tc, w e = 0 ∨ (likeQ e.1 n aQ ≠ 0 ∧ likeQ e.1 n a'Q ≠ 0)) :
    ((hc.zip tc).map (fun e => ((w e : ℚ) : ℝ) *
        (Real.log ((likeQ e.1 n a'Q : ℚ) : ℝ) - Real.log ((likeQ e.1 n aQ : ℚ) : ℝ)))).sum =
      ((((hc.zip tc).map (fun e => w e * (e.1 : ℚ))).sum : ℚ) : ℝ) *
        (Real.log ((a'Q : ℚ) : ℝ) - Real.log ((aQ : ℚ) : ℝ)) +
      ((((hc.zip tc).map (fun e => w e * (e.2 : ℚ))).sum : ℚ) : ℝ) *
        (Real.log (1 - ((a'Q : ℚ) : ℝ)) - Real.log (1 - ((aQ : ℚ) : ℝ))) := by
  have hpoint : ∀ e ∈ hc.zip tc,
      ((w e : ℚ) : ℝ) *
        (Real.log ((likeQ e.1 n a'Q : ℚ) : ℝ) - Real.log ((likeQ e.1 n aQ : ℚ) : ℝ)) =
      ((w e * (e.1 : ℚ) : ℚ) : ℝ) *
        (Real.log ((a'Q : ℚ) : ℝ) - Real.log ((aQ : ℚ) : ℝ)) +
      ((w e * (e.2 : ℚ) : ℚ) : ℝ) *
        (Real.log (1 - ((a'Q : ℚ) : ℝ)) - Real.log (1 - ((aQ : ℚ) : ℝ))) := by
    intro e he
    have hwz' : ((w e : ℚ) : ℝ) = 0 ∨ (likeQ e.1 n aQ ≠ 0 ∧ likeQ e.1 n a'Q ≠ 0) := by
      rcases hwz e he with h | h
      · exact Or.inl (Rat.cast_eq_zero.mpr h)
      · exact Or.inr h
    rw [per_coin_term e.1 e.2 aQ a'Q _ (hval e he) hwz']
    push_cast
    ring
  rw [List.map_congr_left hpoint, list_sum_map_add, cast_list_sum_map, cast_list_sum_map,
    List.sum_map_mul_right, List.sum_map_mul_right]

/-! ### One EM iteration does not decrease the observed-data log-likelihood -/

theorem emStep_loglik_mono {n : ℕ} {hc tc : List ℕ} {a b a' b' : ℚ}
    (hval : ∀ e ∈ hc.zip tc, e.1 + e.2 = n)
    (ha0 : 0 ≤ a) (ha1 : a ≤ 1) (hb0 : 0 ≤ b) (hb1 : b ≤ 1)
    (hupd : emUpdate n hc tc (Option.some a) (Option.some b) =
      (Option.some a', Option.some b')) :
    loglik n hc tc a b ≤ loglik n hc tc a' b' := by
  have hxa : (emUpdate n hc tc (Option.some a) (Option.some b)).1 = Option.some a' := by
    rw [hupd]
  have hxb : (emUpdate n hc tc (Option.some a) (Option.some b)).2 = Option.some b' := by
    rw [hupd]
  have HP := emUpdate_some_HP hxa
  obtain ⟨hdA, haeq⟩ := emUpdate_some_fst hxa
  obtain ⟨hdB, hbeq⟩ := emUpdate_some_snd hxb
  obtain ⟨ha'0, ha'1⟩ := (emUpdate_bounds ha0 ha1 hb0 hb1).1 a' hxa
  obtain ⟨hb'0, hb'1⟩ := (emUpdate_bounds ha0 ha1 hb0 hb1).2 b' hxb
  have hSA := survival_A hval ha0 ha1 hb0 hb1 HP hdA haeq
  have hSB := survival_B hval ha0 ha1 hb0 hb1 HP hdB hbeq
  have hEHA := expHeadsQ_A_nonneg ha0 ha1 hb0 hb1 HP
  have hETA := expTailsQ_A_nonneg ha0 ha1 hb0 hb1 HP
  have hEHB := expHeadsQ_B_nonneg ha0 ha1 hb0 hb1 HP
  have hETB := expTailsQ_B_nonneg ha0 ha1 hb0 hb1 HP
  have hsA : (0:ℚ) < expHeadsQ_A n hc tc a b + expTailsQ_A n hc tc a b :=
    lt_of_le_of_ne (by linarith) (Ne.symm hdA)
  have hsB : (0:ℚ) < expHeadsQ_B n hc tc a b + expTailsQ_B n hc tc a b :=
    lt_of_le_of_ne (by linarith) (Ne.symm hdB)
  have hwcastA : ∀ h : ℕ, ((wQA n a b h : ℚ) : ℝ) =
      ((likeQ h n a : ℚ) : ℝ) / (((likeQ h n a : ℚ) : ℝ) + ((likeQ h n b : ℚ) : ℝ)) := by
    intro h
    unfold wQA
    push_cast
    ring
  have hwcastB : ∀ h : ℕ, ((wQB n a b h : ℚ) : ℝ) =
      ((likeQ h n b : ℚ) : ℝ) / (((likeQ h n a : ℚ) : ℝ) + ((likeQ h n b : ℚ) : ℝ)) := by
    intro h
    unfold wQB
    push_cast
    ring
  have hpoint : ∀ e ∈ hc.zip tc,
      ((wQA n a b e.1 : ℚ) : ℝ) *
          (Real.log ((likeQ e.1 n a' : ℚ) : ℝ) - Real.log ((likeQ e.1 n a : ℚ) : ℝ)) +
        ((wQB n a b e.1 : ℚ) : ℝ) *
          (Real.log ((likeQ e.1 n b' : ℚ) : ℝ) - Real.log ((likeQ e.1 n b : ℚ) : ℝ)) ≤
      Real.log (((likeQ e.1 n a' : ℚ) : ℝ) + ((likeQ e.1 n b' : ℚ) : ℝ)) -
        Real.log (((likeQ e.1 n a : ℚ) : ℝ) + ((likeQ e.1 n b : ℚ) : ℝ)) := by
    intro e he
    have hla0 : (0:ℚ) ≤ likeQ e.1 n a := likeQ_nonneg ha0 ha1
    have hlb0 : (0:ℚ) ≤ likeQ e.1 n b := likeQ_nonneg hb0 hb1
    have hla'0 : (0:ℚ) ≤ likeQ e.1 n a' := likeQ_nonneg ha'0 ha'1
    have hlb'0 : (0:ℚ) ≤ likeQ e.1 n b' := likeQ_nonneg hb'0 hb'1
    have hsum : (0:ℚ) < likeQ e.1 n a + likeQ e.1 n b :=
      lt_of_le_of_ne (by linarith) (Ne.symm (HP e he))
    have hsum' : (0:ℚ) < likeQ e.1 n a' + likeQ e.1 n b' := by
      rcases lt_or_eq_of_le hla0 with hla | hla
      · have h1 := hSA e he (ne_of_gt hla)
        have h2 : (0:ℚ) < likeQ e.1 n a' := lt_of_le_of_ne hla'0 (Ne.symm h1)
        linarith
      · have hlb : (0:ℚ) < likeQ e.1 n b := by
          rcases lt_or_eq_of_le hlb0 with h | h
          · exact h
          · exact absurd (by rw [← hla, ← h] : likeQ e.1 n a + likeQ e.1 n b = 0 + 0)
              (by simpa using HP e he)
        have h1 := hSB e he (ne_of_gt hlb)
        have h2 : (0:ℚ) < likeQ e.1 n b' := lt_of_le_of_ne hlb'0 (Ne.symm h1)
        linarith
    rw [hwcastA e.1, hwcastB e.1]
    apply jensen_two
    · exact_mod_cast hla0
    · exact_mod_cast hlb0
    · exact_mod_cast hsum
    · exact_mod_cast hla'0
    · exact_mod_cast hlb'0
    · exact_mod_cast hsum'
    · intro hpos
      have h1 : (0:ℚ) < likeQ e.1 n a := by exact_mod_cast hpos
      have h2 := hSA e he (ne_of_gt h1)
      have h3 : (0:ℚ) < likeQ e.1 n a' := lt_of_le_of_ne hla'0 (Ne.symm h2)
      exact_mod_cast h3
    · intro hpos
      have h1 : (0:ℚ) < likeQ e.1 n b := by exact_mod_cast hpos
      have h2 := hSB e he (ne_of_gt h1)
      have h3 : (0:ℚ) < likeQ e.1 n b' := lt_of_le_of_ne hlb'0 (Ne.symm h2)
      exact_mod_cast h3
  have hsum_le := List.sum_le_sum hpoint
  have hsplit := list_sum_map_add (hc.zip tc)
    (fun e => ((wQA n a b e.1 : ℚ) : ℝ) *
      (Real.log ((likeQ e.1 n a' : ℚ) : ℝ) - Real.log ((likeQ e.1 n a : ℚ) : ℝ)))
    (fun e => ((wQB n a b e.1 : ℚ) : ℝ) *
      (Real.log ((likeQ e.1 n b' : ℚ) : ℝ) - Real.log ((likeQ e.1 n b : ℚ) : ℝ)))
  have hwzA : ∀ e ∈ hc.zip tc,
      wQA n a b e.1 = 0 ∨ (likeQ e.1 n a ≠ 0 ∧ likeQ e.1 n a' ≠ 0) := by
    intro e he
    by_cases hla : likeQ e.1 n a = 0
    · left
      unfold wQA
      rw [hla, zero_div]
    · exact Or.inr ⟨hla, hSA e he hla⟩
  have hwzB : ∀ e ∈ hc.zip tc,
      wQB n a b e.1 = 0 ∨ (likeQ e.1 n b ≠ 0 ∧ likeQ e.1 n b' ≠ 0) := by
    intro e he
    by_cases hlb : likeQ e.1 n b = 0
    · left
      unfold wQB
      rw [hlb, zero_div]
    · exact Or.inr ⟨hlb, hSB e he hlb⟩
  have hdecompA := coin_sum_decomp (fun e => wQA n a b e.1) a a' hval hwzA
  have hdecompB := coin_sum_decomp (fun e => wQB n a b e.1) b b' hval hwzB
  -- the optimality of the M-step maximizer, per coin
  have hcastsA : (0:ℝ) < ((expHeadsQ_A n hc tc a b : ℚ) : ℝ) +
      ((expTailsQ_A n hc tc a b : ℚ) : ℝ) := by
    exact_mod_cast hsA
  have hcastsB : (0:ℝ) < ((expHeadsQ_B n hc tc a b : ℚ) : ℝ) +
      ((expTailsQ_B n hc tc a b : ℚ) : ℝ) := by
    exact_mod_cast hsB
  have hoptA := mstep_opt ((expHeadsQ_A n hc tc a b : ℚ) : ℝ)
    ((expTailsQ_A n hc tc a b : ℚ) : ℝ) ((a : ℚ) : ℝ)
    (by exact_mod_cast hEHA) (by exact_mod_cast hETA) hcastsA
    (by exact_mod_cast ha0) (by exact_mod_cast ha1)
    (fun h0 => by
      have ha' : a = 0 := by exact_mod_cast h0
      exact_mod_cast @expHeadsQ_A_zero_of_zero n hc tc a b ha')
    (fun h1 => by
      have ha' : a = 1 := by exact_mod_cast h1
      exact_mod_cast @expTailsQ_A_zero_of_one n hc tc a b hval ha')
  have hoptB := mstep_opt ((expHeadsQ_B n hc tc a b : ℚ) : ℝ)
    ((expTailsQ_B n hc tc a b : ℚ) : ℝ) ((b : ℚ) : ℝ)
    (by exact_mod_cast hEHB) (by exact_mod_cast hETB) hcastsB
    (by exact_mod_cast hb0) (by exact_mod_cast hb1)
    (fun h0 => by
      have hb' : b = 0 := by exact_mod_cast h0
      exact_mod_cast @expHeadsQ_B_zero_of_zero n hc tc a b hb')
    (fun h1 => by
      have hb' : b = 1 := by exact_mod_cast h1
      exact_mod_cast @expTailsQ_B_zero_of_one n hc tc a b hval hb')
  have ha'cast : ((a' : ℚ) : ℝ) = ((expHeadsQ_A n hc tc a b : ℚ) : ℝ) /
      (((expHeadsQ_A n hc tc a b : ℚ) : ℝ) + ((expTailsQ_A n hc tc a b : ℚ) : ℝ)) := by
    rw [haeq]
    push_cast
    ring
  have h1a'cast : 1 - ((a' : ℚ) : ℝ) = ((expTailsQ_A n hc tc a b : ℚ) : ℝ) /
      (((expHeadsQ_A n hc tc a b : ℚ) : ℝ) + ((expTailsQ_A n hc tc a b : ℚ) : ℝ)) := by
    rw [ha'cast]
    field_simp
  have hb'cast : ((b' : ℚ) : ℝ) = ((expHeadsQ_B n hc tc a b : ℚ) : ℝ) /
      (((expHeadsQ_B n hc tc a b : ℚ) : ℝ) + ((expTailsQ_B n hc tc a b : ℚ) : ℝ)) := by
    rw [hbeq]
    push_cast
    ring
  have h1b'cast : 1 - ((b' : ℚ) : ℝ) = ((expTailsQ_B n hc tc a b : ℚ) : ℝ) /
      (((expHeadsQ_B n hc tc a b : ℚ) : ℝ) + ((expTailsQ_B n hc tc a b : ℚ) : ℝ)) := by
    rw [hb'cast]
    field_simp
  rw [← ha'cast, ← h1a'cast] at hoptA
  rw [← hb'cast, ← h1b'cast] at hoptB
  have hAkey : 0 ≤ ((expHeadsQ_A n hc tc a b : ℚ) : ℝ) *
      (Real.log ((a' : ℚ) : ℝ) - Real.log ((a : ℚ) : ℝ)) +
      ((expTailsQ_A n hc tc a b : ℚ) : ℝ) *
      (Real.log (1 - ((a' : ℚ) : ℝ)) - Real.log (1 - ((a : ℚ) : ℝ))) := by
    have hexp : ((expHeadsQ_A n hc tc a b : ℚ) : ℝ) *
        (Real.log ((a' : ℚ) : ℝ) - Real.log ((a : ℚ) : ℝ)) +
        ((expTailsQ_A n hc tc a b : ℚ) : ℝ) *
        (Real.log (1 - ((a' : ℚ) : ℝ)) - Real.log (1 - ((a : ℚ) : ℝ))) =
        (((expHeadsQ_A n hc tc a b : ℚ) : ℝ) * Real.log ((a' : ℚ) : ℝ) +
         ((expTailsQ_A n hc tc a b : ℚ) : ℝ) * Real.log (1 - ((a' : ℚ) : ℝ))) -
        (((expHeadsQ_A n hc tc a b : ℚ) : ℝ) * Real.log ((a : ℚ) : ℝ) +
         ((expTailsQ_A n hc tc a b : ℚ) : ℝ) * Real.log (1 - ((a : ℚ) : ℝ))) := by
      ring
    rw [hexp]
    linarith [hoptA]
  have hBkey : 0 ≤ ((expHeadsQ_B n hc tc a b : ℚ) : ℝ) *
      (Real.log ((b' : ℚ) : ℝ) - Real.log ((b : ℚ) : ℝ)) +
      ((expTailsQ_B n hc tc a b : ℚ) : ℝ) *
      (Real.log (1 - ((b' : ℚ) : ℝ)) - Real.log (1 - ((b : ℚ) : ℝ))) := by
    have hexp : ((expHeadsQ_B n hc tc a b : ℚ) : ℝ) *
        (Real.log ((b' : ℚ) : ℝ) - Real.log ((b : ℚ) : ℝ)) +
        ((expTailsQ_B n hc tc a b : ℚ) : ℝ) *
        (Real.log (1 - ((b' : ℚ) : ℝ)) - Real.log (1 - ((b : ℚ) : ℝ))) =
        (((expHeadsQ_B n hc tc a b : ℚ) : ℝ) * Real.log ((b' : ℚ) : ℝ) +
         ((expTailsQ_B n hc tc a b : ℚ) : ℝ) * Real.log (1 - ((b' : ℚ) : ℝ))) -
        (((expHeadsQ_B n hc tc a b : ℚ) : ℝ) * Real.log ((b : ℚ) : ℝ) +
         ((expTailsQ_B n hc tc a b : ℚ) : ℝ) * Real.log (1 - ((b : ℚ) : ℝ))) := by
      ring
    rw [hexp]
    linarith [hoptB]
  have hdiff : loglik n hc tc a' b' - loglik n hc tc a b =
      ((hc.zip tc).map (fun e =>
        Real.log (((likeQ e.1 n a' : ℚ) : ℝ) + ((likeQ e.1 n b' : ℚ) : ℝ)) -
        Real.log (((likeQ e.1 n a : ℚ) : ℝ) + ((likeQ e.1 n b : ℚ) : ℝ)))).sum := by
    unfold loglik
    rw [list_sum_map_sub]
  have hA_eq : expHeadsQ_A n hc tc a b =
      ((hc.zip tc).map (fun e => wQA n a b e.1 * (e.1 : ℚ))).sum := rfl
  have hT_eq : expTailsQ_A n hc tc a b =
      ((hc.zip tc).map (fun e => wQA n a b e.1 * (e.2 : ℚ))).sum := rfl
  have hBH_eq : expHeadsQ_B n hc tc a b =
      ((hc.zip tc).map (fun e => wQB n a b e.1 * (e.1 : ℚ))).sum := rfl
  have hBT_eq : expTailsQ_B n hc tc a b =
      ((hc.zip tc).map (fun e => wQB n a b e.1 * (e.2 : ℚ))).sum := rfl
  rw [← hA_eq, ← hT_eq] at hdecompA
  rw [← hBH_eq, ← hBT_eq] at hdecompB
  have hfinal : 0 ≤ loglik n hc tc a' b' - loglik n hc tc a b := by
    rw [hdiff]
    calc (0:ℝ) ≤
        ((hc.zip tc).map (fun e => ((wQA n a b e.1 : ℚ) : ℝ) *
          (Real.log ((likeQ e.1 n a' : ℚ) : ℝ) - Real.log ((likeQ e.1 n a : ℚ) : ℝ)))).sum +
        ((hc.zip tc).map (fun e => ((wQB n a b e.1 : ℚ) : ℝ) *
          (Real.log ((likeQ e.1 n b' : ℚ) : ℝ) - Real.log ((likeQ e.1 n b : ℚ) : ℝ)))).sum := by
          rw [hdecompA, hdecompB]
          linarith [hAkey, hBkey]
      _ = ((hc.zip tc).map (fun e =>
          ((wQA n a b e.1 : ℚ) : ℝ) *
            (Real.log ((likeQ e.1 n a' : ℚ) : ℝ) - Real.log ((likeQ e.1 n a : ℚ) : ℝ)) +
          ((wQB n a b e.1 : ℚ) : ℝ) *
            (Real.log ((likeQ e.1 n b' : ℚ) : ℝ) - Real.log ((likeQ e.1 n b : ℚ) : ℝ)))).sum :=
          (hsplit).symm
      _ ≤ _ := hsum_le
  linarith [hfinal]

theorem chain_loglik_mono (n : ℕ) (hc tc : List ℕ)
    (hval : ∀ e ∈ hc.zip tc, e.1 + e.2 = n) :
    ∀ (l : List (Val × Val)) (a b : ℚ),
      l.head? = Option.some (Option.some a, Option.some b) →
      0 ≤ a → a ≤ 1 → 0 ≤ b → b ≤ 1 →
      List.Chain' (fun q q' => q' = emUpdate n hc tc q.1 q.2) l →
      (∀ q ∈ l, ∃ x y, q = (Option.some x, Option.some y)) →
      List.Chain' (fun q q' => llv n hc tc q ≤ llv n hc tc q') l := by
  intro l
  induction l with
  | nil =>
    intro a b hhead
    simp at hhead
  | cons q t ih =>
    intro a b hhead ha0 ha1 hb0 hb1 hch hall
    have hq : q = (Option.some a, Option.some b) := by
      simpa using hhead
    cases t with
    | nil => simp
    | cons q' t' =>
      obtain ⟨hstep, hch'⟩ := List.chain'_cons.mp hch
      obtain ⟨x, y, hq'⟩ := hall q' (by simp)
      subst hq
      rw [hq'] at hstep
      have hupd : emUpdate n hc tc (Option.some a) (Option.some b) =
          (Option.some x, Option.some y) := hstep.symm
      have hmono := emStep_loglik_mono hval ha0 ha1 hb0 hb1 hupd
      have hx := (emUpdate_bounds ha0 ha1 hb0 hb1).1 x (by rw [hupd])
      have hy := (emUpdate_bounds ha0 ha1 hb0 hb1).2 y (by rw [hupd])
      refine List.chain'_cons.mpr ⟨?_, ?_⟩
      · rw [hq']
        exact hmono
      · refine ih x y (by rw [hq']; rfl) hx.1 hx.2 hy.1 hy.2 hch' ?_
        intro r hr
        exact hall r (by simp [hr])

/-- C4: along the per-iteration trace of ParameterVectors produced by a
completed, nan-free RunEM on a consistent dataset (each experiment has
heads + tails = n) started from probabilities, the observed-data
log-likelihood of the dataset is non-decreasing from each iteration to
the next (EM monotonicity), recomputed at each trace point. -/
theorem runEM_loglik_monotone (n : ℕ) (hc tc : List ℕ) (eps : ℚ) (a0 b0 : ℚ) (r : EMResult)
    (hval : ∀ e ∈ hc.zip tc, e.1 + e.2 = n)
    (ha0 : 0 ≤ a0) (ha1 : a0 ≤ 1) (hb0 : 0 ≤ b0) (hb1 : b0 ≤ 1)
    (hok : runEM n hc tc eps (Option.some a0) (Option.some b0) = Except.ok r)
    (hreal : ∀ q ∈ r.trace, ∃ x y, q = (Option.some x, Option.some y)) :
    List.Chain' (fun q q' => llv n hc tc q ≤ llv n hc tc q') r.trace := by
  obtain ⟨hchain, hhead⟩ := runEM_ok_chain n hc tc eps _ _ r hok
  exact chain_loglik_mono n hc tc hval r.trace a0 b0 hhead ha0 ha1 hb0 hb1 hchain hreal

/-- Witness for C4: a fully evaluated two-iteration run. -/
theorem runEM_loglik_monotone_witness :
    ((∀ e ∈ [2].zip [0], e.1 + e.2 = 2) ∧ ((0:ℚ) ≤ 1/2 ∧ (1/2:ℚ) ≤ 1) ∧
     runEM 2 [2] [0] (1/100) (Option.some (1/2)) (Option.some (1/2)) =
       Except.ok ⟨[2], [0], Option.some 1, Option.some 1,
         [(Option.some (1/2), Option.some (1/2)), (Option.some 1, Option.some 1),
          (Option.some 1, Option.some 1)]⟩) ∧
    List.Chain' (fun q q' => llv 2 [2] [0] q ≤ llv 2 [2] [0] q')
      [(Option.some (1/2), Option.some (1/2)), (Option.some 1, Option.some 1),
       (Option.some 1, Option.some 1)] := by
  have h1 : emUpdate 2 [2] [0] (Option.some (1/2)) (Option.some (1/2)) =
      (Option.some 1, Option.some 1) := by
    simp only [emUpdate, expectation_A, expectation_B, colSum, List.zip_cons_cons,
      List.zip_nil_right, List.map_cons, List.map_nil, List.foldl_cons, List.foldl_nil]
    norm_num [weightA, weightB, compute_likelihood, vAdd, vMul, vDiv, vPow, vSub]
  have h2 : emUpdate 2 [2] [0] (Option.some 1) (Option.some 1) =
      (Option.some 1, Option.some 1) := by
    simp only [emUpdate, expectation_A, expectation_B, colSum, List.zip_cons_cons,
      List.zip_nil_right, List.map_cons, List.map_nil, List.foldl_cons, List.foldl_nil]
    norm_num [weightA, weightB, compute_likelihood, vAdd, vMul, vDiv, vPow, vSub]
  have hrun : runEM 2 [2] [0] (1/100) (Option.some (1/2)) (Option.some (1/2)) =
      Except.ok ⟨[2], [0], Option.some 1, Option.some 1,
        [(Option.some (1/2), Option.some (1/2)), (Option.some 1, Option.some 1),
         (Option.some 1, Option.some 1)]⟩ := by
    rw [runEM_eq, h1]
    dsimp only
    rw [show (98:ℕ) = 97 + 1 from rfl]
    rw [emLoop_succ (by norm_num [vMax, vAbs, vSub, vGt, abs_of_nonneg])]
    rw [h2]
    dsimp only
    rw [emLoop_exit (by norm_num [vMax, vAbs, vSub, vGt])]
    rfl
  refine ⟨⟨by simp, ⟨by norm_num, by norm_num⟩, hrun⟩, ?_⟩
  have := runEM_loglik_monotone 2 [2] [0] (1/100) (1/2) (1/2)
    ⟨[2], [0], Option.some 1, Option.some 1,
      [(Option.some (1/2), Option.some (1/2)), (Option.some 1, Option.some 1),
       (Option.some 1, Option.some 1)]⟩
    (by simp) (by norm_num) (by norm_num) (by norm_num) (by norm_num) hrun
    (by
      intro q hq
      simp only [List.mem_cons, List.not_mem_nil, or_false] at hq
      rcases hq with rfl | rfl | rfl
      · exact ⟨1/2, 1/2, rfl⟩
      · exact ⟨1, 1, rfl⟩
      · exact ⟨1, 1, rfl⟩)
  exact this
